import Mathlib

/-!
Verification of the Relay ahead-of-time compiler front-end
(src/aot/aot/__init__.py).

The development shallowly embeds the AoT lowering pass: the typed source
IR, the lowered ("little cpp") IR, the compiler state (global definition
map, operator cache / TVM global-function registry, binding-list stack),
the lowering visitor as a fuel-indexed state-passing function, and the
entry-point wrapper's value marshalling.  Fuel bounds recursion depth
only; a sufficiency theorem shows that enough fuel always exists, which
models the Python code's plain (unbounded) recursion.
-/

namespace RelayAoT

/-- Static types attached to expressions by the upstream type-inference
pass (relay checked_type): tensor types (shape, dtype), tuple types,
function types and algebraic data types. -/
inductive RType : Type where
  | tensor (shape : List Nat) (dtype : Nat)
  | tupleT (fields : List RType)
  | funcT (argTys : List RType) (ret : RType)
  | adtT (name : Nat)

/-- Match-clause patterns (relay PatternWildcard / PatternVar /
PatternConstructor). -/
inductive Pat : Type where
  | wildcard
  | patVar (id : Nat) (ty : RType)
  | patCtor (tag : Nat) (subs : List Pat)

/-- Typed source IR (relay expressions).  Every constructor carries its
resolved checked_type as the final field; a Function additionally carries
its declared return type and its attribute record, where the attribute
record is modelled as the optional value of the Primitive attribute
(attrs falsy in Python corresponds to none). -/
inductive Expr : Type where
  | var (id : Nat) (ty : RType)
  | constant (val : Int) (ty : RType)
  | globalVar (id : Nat) (ty : RType)
  | call (op : Expr) (args : List Expr) (ty : RType)
  | letE (v : Nat) (vty : RType) (value : Expr) (body : Expr) (ty : RType)
  | ifE (c : Expr) (t : Expr) (f : Expr) (ty : RType)
  | tupleE (fields : List Expr) (ty : RType)
  | func (params : List (Nat × RType)) (body : Expr) (retTy : RType)
      (attrs : Option Int) (ty : RType)
  | ctor (tag : Nat) (ty : RType)
  | matchE (data : Expr) (clauses : List (Pat × Expr)) (ty : RType)

/-- checked_type of an expression (read, never recomputed, by the pass). -/
def Expr.checkedType : Expr → RType
  | .var _ ty => ty
  | .constant _ ty => ty
  | .globalVar _ ty => ty
  | .call _ _ ty => ty
  | .letE _ _ _ _ ty => ty
  | .ifE _ _ _ ty => ty
  | .tupleE _ ty => ty
  | .func _ _ _ _ ty => ty
  | .ctor _ ty => ty
  | .matchE _ _ ty => ty

/-- Parameter list of a Function expression (func.params); empty on
non-functions, where the Python code would fail attribute lookup. -/
def Expr.paramsOf : Expr → List (Nat × RType)
  | .func ps _ _ _ _ => ps
  | _ => []

/-- ret_type projection of a FuncType (checked_type.ret_type).  After
type inference a Function's checked type is always a FuncType, so the
fallback arm is unreachable on the states the compiler produces. -/
def RType.retType : RType → RType
  | .funcT _ r => r
  | t => t

/-- Whether an expression is a Let node. -/
def Expr.isLet : Expr → Bool
  | .letE _ _ _ _ _ => true
  | _ => false

/-- Source line 80: is_primitive, true exactly when the expression is a
Function whose attribute record is present with Primitive value 1. -/
def is_primitive : Expr → Bool
  | .func _ _ _ (some v) _ => v == 1
  | _ => false

/-- Lowered IR node.  Modelled from the spec: the little_cpp module that
declares these nodes is not under src/, so the node set and field order
follow the spec's Lowered IR description (section 3) and the constructor
calls in src/aot/aot/__init__.py (PackedCall, CPPFunction, Invoke, Decl,
CPPIf, CPPTuple, CPPMatch, CPPConstructor).  Leaf relay nodes (Variable,
Constant, GlobalReference) are returned unchanged by the visitor, which
the relayExpr constructor embeds. -/
inductive CPPExpr : Type where
  | packedCall (name : List Nat) (arity : Nat) (args : List Expr)
      (outTy : RType) (argsIsTuple : Bool)
  | cppFunction (params : List (Nat × RType)) (body : CPPExpr) (retTy : RType)
  | invoke (callee : CPPExpr) (args : List CPPExpr)
  | decl (bindings : List ((Nat × RType) × CPPExpr)) (body : CPPExpr)
  | cppIf (cond : CPPExpr) (thenB : CPPExpr) (elseB : CPPExpr) (ty : RType)
  | cppTuple (fields : List CPPExpr) (ty : RType)
  | cppMatch (data : CPPExpr) (clauses : List (Pat × CPPExpr)) (ty : RType)
  | cppCtor (tag : Nat) (args : List CPPExpr)
  | relayExpr (e : Expr)

/-- Entry of the global definition map gv_map: either the provisional
marker string "to be updated" or the final lowered value. -/
inductive GvEntry : Type where
  | marker
  | done (c : CPPExpr)

/-- Error taxonomy of the lowering pass: the assert at lines 107-108
(TypeShapeError), a failing engine.jit (KernelCompilationError), a
missing module entry (Python KeyError at line 148), and dispatch on a
node with no lowering rule. -/
inductive ErrKind : Type where
  | typeShape
  | kernelCompilation
  | keyError
  | unsupportedNode
deriving DecidableEq

/-- Outcome of a fuel-indexed computation: a value, a raised error, or
fuel exhaustion (which the sufficiency theorem rules out). -/
inductive Out (α : Type) : Type where
  | ok (a : α)
  | err (k : ErrKind)
  | fuelOut

/-- Compiler session state: the module (self.mod), the global definition
map (self.gv_map), the binding-list stack (self.bindings, head = top),
the process-wide operator cache (names registered via register_func),
an oracle telling whether engine.jit succeeds on a given kernel name,
and two instrumentation counters used to state the spec's observables:
the number of engine.jit invocations and the log of global identifiers
whose definitions were entered by visit_global_var. -/
structure CState : Type where
  mod : List (Nat × Expr)
  gvMap : List (Nat × GvEntry)
  bindings : List (List ((Nat × RType) × CPPExpr))
  registered : List (List Nat)
  jitOk : List Nat → Bool
  jitCount : Nat
  visitLog : List Nat

/-- Association lookup on a Nat-keyed list (dict read). -/
def alookup {α : Type} : List (Nat × α) → Nat → Option α
  | [], _ => none
  | (k, v) :: rest, g => if k = g then some v else alookup rest g

/-- Association insert-or-replace on a Nat-keyed list (dict assignment). -/
def ainsert {α : Type} : List (Nat × α) → Nat → α → List (Nat × α)
  | [], g, v => [(g, v)]
  | (k, w) :: rest, g, v =>
      if k = g then (g, v) :: rest else (k, w) :: ainsert rest g v

/-- Keys of an association list. -/
def keysOf {α : Type} (m : List (Nat × α)) : List Nat := m.map Prod.fst

/-- Index of the first occurrence of a value in a list. -/
def idxOf : List Nat → Nat → Option Nat
  | [], _ => none
  | y :: ys, x => if y = x then some 0 else (idxOf ys x).map (· + 1)

/-- Injective encoding of an integer as a natural number. -/
def encInt : Int → Nat
  | .ofNat n => 2 * n
  | .negSucc n => 2 * n + 1

mutual

/-- Node count of an expression; drives size induction and the fuel
bounds of the visitor. -/
def esize : Expr → Nat
  | .var _ _ => 1
  | .constant _ _ => 1
  | .globalVar _ _ => 1
  | .ctor _ _ => 1
  | .call op args _ => 1 + esize op + esizeList args
  | .letE _ _ value body _ => 1 + esize value + esize body
  | .ifE c t f _ => 1 + esize c + esize t + esize f
  | .tupleE fields _ => 1 + esizeList fields
  | .func _ body _ _ _ => 1 + esize body
  | .matchE d cls _ => 1 + esize d + esizeClauses cls

/-- Sum of node counts of a list of expressions. -/
def esizeList : List Expr → Nat
  | [] => 0
  | e :: es => esize e + esizeList es

/-- Sum of node counts of the right-hand sides of match clauses. -/
def esizeClauses : List (Pat × Expr) → Nat
  | [] => 0
  | (_, rhs) :: cs => esize rhs + esizeClauses cs

end

mutual

/-- Variable renaming: applies a map to every local variable identifier,
binding occurrences and uses alike; global identifiers, constants and
types are untouched.  Two expressions are "structurally identical with
possibly different variable names" when one is an injective renaming of
the other. -/
def rename (r : Nat → Nat) : Expr → Expr
  | .var x ty => .var (r x) ty
  | .constant c ty => .constant c ty
  | .globalVar g ty => .globalVar g ty
  | .call op args ty => .call (rename r op) (renameList r args) ty
  | .letE v vty value body ty =>
      .letE (r v) vty (rename r value) (rename r body) ty
  | .ifE c t f ty => .ifE (rename r c) (rename r t) (rename r f) ty
  | .tupleE fields ty => .tupleE (renameList r fields) ty
  | .func ps body retTy attrs ty =>
      .func (ps.map fun p => (r p.1, p.2)) (rename r body) retTy attrs ty
  | .ctor tag ty => .ctor tag ty
  | .matchE d cls ty => .matchE (rename r d) (renameClauses r cls) ty

/-- Renaming mapped over a list of expressions. -/
def renameList (r : Nat → Nat) : List Expr → List Expr
  | [] => []
  | e :: es => rename r e :: renameList r es

/-- Renaming mapped over match clauses (pattern variables included). -/
def renameClauses (r : Nat → Nat) : List (Pat × Expr) → List (Pat × Expr)
  | [] => []
  | (p, rhs) :: cs => (renamePat r p, rename r rhs) :: renameClauses r cs

/-- Renaming of pattern variables. -/
def renamePat (r : Nat → Nat) : Pat → Pat
  | .wildcard => .wildcard
  | .patVar x ty => .patVar (r x) ty
  | .patCtor tag subs => .patCtor tag (renamePatList r subs)

/-- Renaming mapped over subpatterns. -/
def renamePatList (r : Nat → Nat) : List Pat → List Pat
  | [] => []
  | p :: ps => renamePat r p :: renamePatList r ps

end

mutual

/-- Variables bound by a pattern, in traversal order. -/
def patVars : Pat → List (Nat × RType)
  | .wildcard => []
  | .patVar x ty => [(x, ty)]
  | .patCtor _ subs => patVarsList subs

/-- Variables bound by a list of subpatterns. -/
def patVarsList : List Pat → List (Nat × RType)
  | [] => []
  | p :: ps => patVars p ++ patVarsList ps

end

mutual

/-- Scoping check: every local variable use refers to an enclosing
binder recorded in the environment (innermost first). -/
def wellScoped (env : List Nat) : Expr → Bool
  | .var x _ => (idxOf env x).isSome
  | .constant _ _ => true
  | .globalVar _ _ => true
  | .ctor _ _ => true
  | .call op args _ => wellScoped env op && wellScopedList env args
  | .letE v _ value body _ => wellScoped env value && wellScoped (v :: env) body
  | .ifE c t f _ => wellScoped env c && wellScoped env t && wellScoped env f
  | .tupleE fields _ => wellScopedList env fields
  | .func ps body _ _ _ => wellScoped ((ps.map Prod.fst).reverse ++ env) body
  | .matchE d cls _ => wellScoped env d && wellScopedClauses env cls

/-- Scoping check over a list of expressions. -/
def wellScopedList (env : List Nat) : List Expr → Bool
  | [] => true
  | e :: es => wellScoped env e && wellScopedList env es

/-- Scoping check over match clauses: each right-hand side may use the
variables bound by its pattern. -/
def wellScopedClauses (env : List Nat) : List (Pat × Expr) → Bool
  | [] => true
  | (p, rhs) :: cs =>
      wellScoped (((patVars p).map Prod.fst).reverse ++ env) rhs &&
        wellScopedClauses env cs

end

mutual

/-- Serialization of a type as a token stream (types contain no local
variables, so no environment is needed). -/
def serTy : RType → List Nat
  | .tensor shape dtype => 0 :: dtype :: shape.length :: shape
  | .tupleT fields => 1 :: fields.length :: serTyList fields
  | .funcT argTys ret => 2 :: argTys.length :: (serTyList argTys ++ serTy ret)
  | .adtT n => [3, n]

/-- Serialization of a list of types. -/
def serTyList : List RType → List Nat
  | [] => []
  | t :: ts => serTy t ++ serTyList ts

end

mutual

/-- Serialization of a pattern's shape: variable identity is dropped
(only position matters), making the stream invariant under renaming. -/
def serPat : Pat → List Nat
  | .wildcard => [0]
  | .patVar _ ty => 1 :: serTy ty
  | .patCtor tag subs => 2 :: tag :: subs.length :: serPatList subs

/-- Serialization of a list of subpatterns. -/
def serPatList : List Pat → List Nat
  | [] => []
  | p :: ps => serPat p ++ serPatList ps

end

/-- Code of a variable relative to the binder environment: its de Bruijn
index when bound, and an environment-offset copy of the raw identifier
when free. -/
def varCode (env : List Nat) (x : Nat) : Nat :=
  match idxOf env x with
  | some i => i
  | none => env.length + x

/-- Encoding of the attribute record. -/
def encAttrs : Option Int → List Nat
  | none => [0]
  | some v => [1, encInt v]

mutual

/-- Structural fingerprint stream of an expression: a content-addressed
serialization in which bound variables are replaced by de Bruijn indices,
so structurally identical expressions that differ only in variable names
serialize identically.  This embeds relay.ir_pass.structural_hash (and
the kernel name op{hash} derived from it, the derivation being
injective). -/
def hashExpr (env : List Nat) : Expr → List Nat
  | .var x ty => 0 :: varCode env x :: serTy ty
  | .constant c ty => 1 :: encInt c :: serTy ty
  | .globalVar g ty => 2 :: g :: serTy ty
  | .call op args ty =>
      3 :: args.length ::
        (hashExpr env op ++ hashList env args ++ serTy ty)
  | .letE v vty value body ty =>
      4 :: (serTy vty ++ hashExpr env value ++ hashExpr (v :: env) body ++ serTy ty)
  | .ifE c t f ty =>
      5 :: (hashExpr env c ++ hashExpr env t ++ hashExpr env f ++ serTy ty)
  | .tupleE fields ty => 6 :: fields.length :: (hashList env fields ++ serTy ty)
  | .func ps body retTy attrs ty =>
      7 :: ps.length ::
        (serTyList (ps.map Prod.snd) ++ encAttrs attrs ++
          hashExpr ((ps.map Prod.fst).reverse ++ env) body ++
          serTy retTy ++ serTy ty)
  | .ctor tag ty => 8 :: tag :: serTy ty
  | .matchE d cls ty =>
      9 :: cls.length :: (hashExpr env d ++ hashClauses env cls ++ serTy ty)

/-- Fingerprint stream of a list of expressions. -/
def hashList (env : List Nat) : List Expr → List Nat
  | [] => []
  | e :: es => hashExpr env e ++ hashList env es

/-- Fingerprint stream of match clauses: pattern shape followed by the
right-hand side hashed under the pattern's binders. -/
def hashClauses (env : List Nat) : List (Pat × Expr) → List Nat
  | [] => []
  | (p, rhs) :: cs =>
      serPat p ++ hashExpr (((patVars p).map Prod.fst).reverse ++ env) rhs ++
        hashClauses env cs

end

/-- Source line 112: structural hash of an operator definition, and the
deterministic kernel name op{hash} derived from it. -/
def structural_hash (f : Expr) : List Nat := hashExpr [] f

/-- Whether a checked type is a TensorType. -/
def isTensorTy : RType → Bool
  | .tensor _ _ => true
  | _ => false

/-- Source lines 103-110: the calling-convention computation of
mk_primitive_op.  A single tuple-typed argument selects the spread
convention with arity the number of tuple fields; otherwise every
argument must be tensor-typed (the asserts at lines 107-108) and the
arity is the operator definition's parameter count; none models the
failing assert (TypeShapeError). -/
def callingConv (func : Expr) (args : List Expr) : Option (Bool × Nat) :=
  match args with
  | [a] =>
      match a.checkedType with
      | .tupleT fields => some (true, fields.length)
      | _ =>
          if (args.all fun x => isTensorTy x.checkedType) then
            some (false, func.paramsOf.length)
          else none
  | _ =>
      if (args.all fun x => isTensorTy x.checkedType) then
        some (false, func.paramsOf.length)
      else none

/-- Source lines 102-117: mk_primitive_op.  Determine the calling
convention, fingerprint the operator, and if no kernel is registered
under the derived name, invoke engine.jit (counted) and register the
result; finally produce the PackedCall with arity num_param + 1.  A
failing jit raises before register_func runs, so nothing is cached. -/
def mk_primitive_op (func : Expr) (args : List Expr) (outTy : RType)
    (st : CState) : CState × Out CPPExpr :=
  match callingConv func args with
  | none => (st, .err .typeShape)
  | some (argsIsTuple, numParam) =>
      let name := structural_hash func
      if name ∈ st.registered then
        (st, .ok (.packedCall name (numParam + 1) args outTy argsIsTuple))
      else
        let st1 := { st with jitCount := st.jitCount + 1 }
        if st.jitOk name then
          ({ st1 with registered := name :: st1.registered },
            .ok (.packedCall name (numParam + 1) args outTy argsIsTuple))
        else (st1, .err .kernelCompilation)

/-- Push an empty binding list (source line 130: self.bindings.append([])).
The top of the stack is the head. -/
def pushFrame (st : CState) : CState :=
  { st with bindings := [] :: st.bindings }

/-- Append a binding pair to the top binding list (source lines 91-92:
add_binding).  The empty-stack arm mirrors a state the Python code can
never reach, since add_binding only runs between a push and its pop. -/
def addBinding (st : CState) (b : (Nat × RType) × CPPExpr) : CState :=
  match st.bindings with
  | [] => { st with bindings := [[b]] }
  | frame :: rest => { st with bindings := (frame ++ [b]) :: rest }

/-- Pop the top binding list (source line 137: self.bindings.pop()). -/
def popFrame (st : CState) : (List ((Nat × RType) × CPPExpr)) × CState :=
  match st.bindings with
  | [] => ([], st)
  | frame :: rest => (frame, { st with bindings := rest })

mutual

/-- The lowering visitor (AoTCompiler.visit dispatch, source lines
119-173), as a fuel-indexed state-passing function.  Fuel bounds only
the recursion depth: every recursive call runs at fuel n after matching
n + 1, and the sufficiency theorem below discharges fuelOut.  Cases:
calls (primitive / constructor / general Invoke), let-chains (delegated
to the flattening loop after pushing a fresh binding list), leaf nodes
returned unchanged, global references resolved through the memoized
gv_map with a provisional marker, functions, conditionals, tuples and
matches rebuilt with lowered children.  A Constructor reached outside
call-operator position has no handler in the Python visitor, which the
defensive UnsupportedNodeError arm models. -/
def visit : Nat → Expr → CState → CState × Out CPPExpr
  | 0, _, st => (st, .fuelOut)
  | n + 1, e, st =>
      match e with
      | .var x ty => (st, .ok (.relayExpr (.var x ty)))
      | .constant c ty => (st, .ok (.relayExpr (.constant c ty)))
      | .globalVar g ty =>
          if (alookup st.gvMap g).isSome then
            (st, .ok (.relayExpr (.globalVar g ty)))
          else
            let st1 := { st with gvMap := ainsert st.gvMap g .marker,
                                 visitLog := st.visitLog ++ [g] }
            match alookup st1.mod g with
            | none => (st1, .err .keyError)
            | some d =>
                match visit n d st1 with
                | (st2, .ok cd) =>
                    ({ st2 with gvMap := ainsert st2.gvMap g (.done cd) },
                      .ok (.relayExpr (.globalVar g ty)))
                | (st2, .err k) => (st2, .err k)
                | (st2, .fuelOut) => (st2, .fuelOut)
      | .call op args ty =>
          if is_primitive op then mk_primitive_op op args ty st
          else
            match op with
            | .ctor tag _ =>
                match visitList n args st with
                | (st1, .ok cargs) => (st1, .ok (.cppCtor tag cargs))
                | (st1, .err k) => (st1, .err k)
                | (st1, .fuelOut) => (st1, .fuelOut)
            | _ =>
                match visitList n args st with
                | (st1, .ok cargs) =>
                    match visit n op st1 with
                    | (st2, .ok cfn) => (st2, .ok (.invoke cfn cargs))
                    | (st2, .err k) => (st2, .err k)
                    | (st2, .fuelOut) => (st2, .fuelOut)
                | (st1, .err k) => (st1, .err k)
                | (st1, .fuelOut) => (st1, .fuelOut)
      | .letE v vty value body ty =>
          visitLet n (.letE v vty value body ty) (pushFrame st)
      | .ifE c t f ty =>
          match visit n c st with
          | (st1, .ok cc) =>
              match visit n t st1 with
              | (st2, .ok ct) =>
                  match visit n f st2 with
                  | (st3, .ok cf) => (st3, .ok (.cppIf cc ct cf ty))
                  | (st3, .err k) => (st3, .err k)
                  | (st3, .fuelOut) => (st3, .fuelOut)
              | (st2, .err k) => (st2, .err k)
              | (st2, .fuelOut) => (st2, .fuelOut)
          | (st1, .err k) => (st1, .err k)
          | (st1, .fuelOut) => (st1, .fuelOut)
      | .tupleE fields ty =>
          match visitList n fields st with
          | (st1, .ok cfs) => (st1, .ok (.cppTuple cfs ty))
          | (st1, .err k) => (st1, .err k)
          | (st1, .fuelOut) => (st1, .fuelOut)
      | .func ps body retTy attrs ty =>
          if is_primitive (.func ps body retTy attrs ty) then
            match mk_primitive_op (.func ps body retTy attrs ty)
                (ps.map fun p => Expr.var p.1 p.2) retTy st with
            | (st1, .ok b) => (st1, .ok (.cppFunction ps b ty.retType))
            | (st1, .err k) => (st1, .err k)
            | (st1, .fuelOut) => (st1, .fuelOut)
          else
            match visit n body st with
            | (st1, .ok cb) => (st1, .ok (.cppFunction ps cb ty.retType))
            | (st1, .err k) => (st1, .err k)
            | (st1, .fuelOut) => (st1, .fuelOut)
      | .ctor _ _ => (st, .err .unsupportedNode)
      | .matchE d cls ty =>
          match visit n d st with
          | (st1, .ok cd) =>
              match visitList n (cls.map Prod.snd) st1 with
              | (st2, .ok crs) =>
                  (st2, .ok (.cppMatch cd (List.zip (cls.map Prod.fst) crs) ty))
              | (st2, .err k) => (st2, .err k)
              | (st2, .fuelOut) => (st2, .fuelOut)
          | (st1, .err k) => (st1, .err k)
          | (st1, .fuelOut) => (st1, .fuelOut)

/-- Sequential lowering of a list of expressions, threading the state
(the list comprehensions at source lines 123, 125, 168 and the clause
traversal at line 172, which visits right-hand sides in clause order). -/
def visitList : Nat → List Expr → CState → CState × Out (List CPPExpr)
  | 0, _, st => (st, .fuelOut)
  | _ + 1, [], st => (st, .ok [])
  | n + 1, e :: es, st =>
      match visit n e st with
      | (st1, .ok c) =>
          match visitList n es st1 with
          | (st2, .ok cs) => (st2, .ok (c :: cs))
          | (st2, .err k) => (st2, .err k)
          | (st2, .fuelOut) => (st2, .fuelOut)
      | (st1, .err k) => (st1, .err k)
      | (st1, .fuelOut) => (st1, .fuelOut)

/-- The flattening loop of visit_let (source lines 129-140), entered
after the fresh binding list is pushed: while the expression is a Let,
lower its value, append the binding, and descend into the body; at the
first non-Let expression pop the accumulated bindings, lower that final
body, and produce the single Declaration block. -/
def visitLet : Nat → Expr → CState → CState × Out CPPExpr
  | 0, _, st => (st, .fuelOut)
  | n + 1, .letE v vty value body _, st =>
      match visit n value st with
      | (st1, .ok cv) => visitLet n body (addBinding st1 ((v, vty), cv))
      | (st1, .err k) => (st1, .err k)
      | (st1, .fuelOut) => (st1, .fuelOut)
  | n + 1, e, st =>
      let pr := popFrame st
      match visit n e pr.2 with
      | (st2, .ok cb) => (st2, .ok (.decl pr.1 cb))
      | (st2, .err k) => (st2, .err k)
      | (st2, .fuelOut) => (st2, .fuelOut)

end

/-- Weight of the not-yet-visited module entries: an upper bound on the
extra recursion depth global resolution can add.  Visited entries
contribute nothing. -/
def unvisitedWeight (st : CState) : Nat :=
  (st.mod.map fun gd =>
    if (alookup st.gvMap gd.1).isSome then 0 else 3 * esize gd.2 + 1).sum

/-- Session-state well-formedness: the visit log holds no duplicates
(each global entered at most once), logged globals are present in the
map, and the map's keys are duplicate-free. -/
structure WfSt (st : CState) : Prop where
  logNodup : st.visitLog.Nodup
  logInMap : ∀ g ∈ st.visitLog, (alookup st.gvMap g).isSome
  keysNodup : (keysOf st.gvMap).Nodup

/-- A chain of nested sequential let bindings: IsChain e items fin holds
when e is items (variable, annotated type, bound value, in order) nested
around the non-let final body fin. -/
inductive IsChain : Expr → List ((Nat × RType) × Expr) → Expr → Prop where
  | nil (e : Expr) (h : e.isLet = false) : IsChain e [] e
  | cons (v : Nat) (vty : RType) (value body : Expr) (ty : RType)
      (items : List ((Nat × RType) × Expr)) (fin : Expr)
      (h : IsChain body items fin) :
      IsChain (.letE v vty value body ty) (((v, vty), value) :: items) fin

/-- Repeated primitive lowerings within one session (the operator-cache
observable of spec section 8.1): fold mk_primitive_op over a list of
(operator, arguments, output type) jobs, keeping the state. -/
def runPrims : List (Expr × List Expr × RType) → CState → CState
  | [], st => st
  | (f, args, ty) :: rest, st => runPrims rest (mk_primitive_op f args ty st).1

/-- Host values arriving at the entry-point wrapper: native array handles
(tvm.ndarray.NDArray), interpreter tensor values, or anything else. -/
inductive HostVal : Type where
  | ndarray (data : Int)
  | tensorValue (data : Int)
  | other (tag : Nat)
deriving DecidableEq

/-- Source lines 190-195: convert.  NDArray handles are wrapped as
TensorValue, TensorValue passes through, and any other value raises
(modelled as none). -/
def convert : HostVal → Option HostVal
  | .ndarray d => some (.tensorValue d)
  | .tensorValue d => some (.tensorValue d)
  | .other _ => none

/-- Conversion of a list of call values in order, failing at the first
unconvertible one (the list comprehensions at line 197 raise there). -/
def convertList : List HostVal → Option (List HostVal)
  | [] => some []
  | a :: rest =>
      match convert a with
      | none => none
      | some c =>
          match convertList rest with
          | none => none
          | some cs => some (c :: cs)

/-- Source lines 196-197: wrap.  The value of the model is the full
positional argument list handed to the native packed symbol fn: every
captured parameter converted, in order, followed by every caller
argument converted, in order; none models the raised marshalling error. -/
def wrap (params args : List HostVal) : Option (List HostVal) :=
  match convertList params with
  | none => none
  | some ps =>
      match convertList args with
      | none => none
      | some as1 => some (ps ++ as1)

/-- An entry-point invocation seen together with the process-wide
compiler state: the wrap closure reads and writes no compilation state
(it closes only over fn and params), so the state passes through
unchanged whether or not marshalling fails. -/
def invokeEntry (st : CState) (params args : List HostVal) :
    Option (List HostVal) × CState :=
  (wrap params args, st)

/-- Whether a host value is in the native tensor representation. -/
def isNativeTensor : HostVal → Bool
  | .tensorValue _ => true
  | _ => false

/-! Concrete instances used to exercise the theorems on closed inputs. -/

/-- Scalar float tensor type used by the concrete examples. -/
def tE : RType := .tensor [] 0

/-- A primitive operator definition: a one-parameter identity-like fused
function marked Primitive = 1. -/
def pF1 : Expr := .func [(0, tE)] (.var 0 tE) tE (some 1) (.funcT [tE] tE)

/-- The same operator with all variable identifiers shifted: structurally
identical to pF1, different variable names. -/
def pF2 : Expr := rename (fun x => x + 7) pF1

/-- A tensor-typed argument expression. -/
def aX : Expr := .var 100 tE

/-- A fresh compiler session: empty module, maps and cache, one empty
binding list (self.bindings = [[]]), succeeding jit. -/
def stW : CState :=
  { mod := [], gvMap := [], bindings := [[]], registered := [],
    jitOk := fun _ => true, jitCount := 0, visitLog := [] }

/-- A self-recursive global definition: global 0 is a function whose body
calls global 0 (a factorial-like recursive shape). -/
def fRec : Expr :=
  .func [(1, tE)]
    (.call (.globalVar 0 (.funcT [tE] tE)) [.var 1 tE] tE)
    tE none (.funcT [tE] tE)

/-- A session whose module binds global 0 to the self-recursive fRec. -/
def stRec : CState :=
  { mod := [(0, fRec)], gvMap := [], bindings := [[]], registered := [],
    jitOk := fun _ => true, jitCount := 0, visitLog := [] }

/-- A session whose global 0 has a body that fails to lower (a bare
constructor reference, which the visitor rejects). -/
def stBad : CState :=
  { mod := [(0, .ctor 0 tE)], gvMap := [], bindings := [[]], registered := [],
    jitOk := fun _ => true, jitCount := 0, visitLog := [] }

/-! Association-list lemmas. -/

theorem alookup_ainsert_self {α : Type} (m : List (Nat × α)) (g : Nat) (v : α) :
    alookup (ainsert m g v) g = some v := by
  induction m with
  | nil => simp [ainsert, alookup]
  | cons p rest ih =>
      obtain ⟨k, w⟩ := p
      by_cases h : k = g
      · subst h; simp [ainsert, alookup]
      · simp [ainsert, alookup, h, ih]

theorem alookup_ainsert_ne {α : Type} (m : List (Nat × α)) (g h : Nat) (v : α)
    (hne : h ≠ g) : alookup (ainsert m g v) h = alookup m h := by
  have hgh : g ≠ h := fun he => hne he.symm
  induction m with
  | nil => simp [ainsert, alookup, hgh]
  | cons p rest ih =>
      obtain ⟨k, w⟩ := p
      by_cases hk : k = g
      · subst hk
        simp [ainsert, alookup, hgh]
      · simp only [ainsert, if_neg hk]
        by_cases hkh : k = h
        · simp [alookup, hkh]
        · simp [alookup, hkh, ih]

theorem alookup_eq_none_iff {α : Type} (m : List (Nat × α)) (g : Nat) :
    alookup m g = none ↔ g ∉ keysOf m := by
  induction m with
  | nil => simp [alookup, keysOf]
  | cons p rest ih =>
      obtain ⟨k, w⟩ := p
      by_cases h : k = g
      · subst h; simp [alookup, keysOf]
      · have hgk : ¬ g = k := fun he => h he.symm
        simp [alookup, keysOf, h, ih, hgk]

theorem keysOf_ainsert_mem {α : Type} (m : List (Nat × α)) (g : Nat) (v : α)
    (h : g ∈ keysOf m) : keysOf (ainsert m g v) = keysOf m := by
  induction m with
  | nil => simp [keysOf] at h
  | cons p rest ih =>
      obtain ⟨k, w⟩ := p
      by_cases hk : k = g
      · subst hk; simp [ainsert, keysOf]
      · simp only [keysOf, List.map_cons, List.mem_cons] at h
        rcases h with h | h
        · exact absurd h.symm hk
        · have := ih h
          simp only [keysOf] at this
          simp [ainsert, keysOf, hk, this]

theorem keysOf_ainsert_not_mem {α : Type} (m : List (Nat × α)) (g : Nat) (v : α)
    (h : g ∉ keysOf m) : keysOf (ainsert m g v) = keysOf m ++ [g] := by
  induction m with
  | nil => simp [ainsert, keysOf]
  | cons p rest ih =>
      obtain ⟨k, w⟩ := p
      simp only [keysOf, List.map_cons, List.mem_cons] at h
      push_neg at h
      have hkg : ¬ k = g := fun he => h.1 he.symm
      have := ih h.2
      simp only [keysOf] at this
      simp [ainsert, keysOf, hkg, this]

theorem alookup_isSome_of_mem_keys {α : Type} (m : List (Nat × α)) (g : Nat)
    (h : g ∈ keysOf m) : (alookup m g).isSome := by
  rcases hl : alookup m g with _ | v
  · exact absurd h ((alookup_eq_none_iff m g).mp hl)
  · simp

/-! Size lemmas. -/

theorem esize_pos : ∀ e : Expr, 1 ≤ esize e := by
  intro e
  cases e <;> simp [esize] <;> omega

/-! Alpha-invariance of the structural fingerprint: an injective renaming
of all local variables leaves the fingerprint stream unchanged on
well-scoped expressions. -/

theorem idxOf_map (r : Nat → Nat) (hinj : Function.Injective r) :
    ∀ (env : List Nat) (x : Nat), idxOf (List.map r env) (r x) = idxOf env x := by
  intro env x
  induction env with
  | nil => simp [idxOf]
  | cons y ys ih =>
      by_cases h : y = x
      · subst h; simp [idxOf]
      · have h2 : ¬ (r y = r x) := fun he => h (hinj he)
        simp [idxOf, h, h2, ih]

theorem patVars_renamePat (r : Nat → Nat) :
    ∀ p : Pat, patVars (renamePat r p) = (patVars p).map fun q => (r q.1, q.2) := by
  have main : ∀ p : Pat,
      (patVars (renamePat r p) = (patVars p).map fun q => (r q.1, q.2)) := by
    refine patVars.induct
      (motive_1 := fun p => patVars (renamePat r p) = (patVars p).map fun q => (r q.1, q.2))
      (motive_2 := fun ps => patVarsList (renamePatList r ps) =
        (patVarsList ps).map fun q => (r q.1, q.2)) ?_ ?_ ?_ ?_ ?_
    · simp [renamePat, patVars]
    · intro x ty; simp [renamePat, patVars]
    · intro tag subs ih; simpa [renamePat, patVars] using ih
    · simp [renamePatList, patVarsList]
    · intro p ps ih1 ih2; simp [renamePatList, patVarsList, ih1, ih2]
  exact main

theorem serPat_renamePat (r : Nat → Nat) :
    ∀ p : Pat, serPat (renamePat r p) = serPat p := by
  have main : ∀ p : Pat, serPat (renamePat r p) = serPat p := by
    refine serPat.induct
      (motive_1 := fun p => serPat (renamePat r p) = serPat p)
      (motive_2 := fun ps => serPatList (renamePatList r ps) = serPatList ps ∧
        (renamePatList r ps).length = ps.length) ?_ ?_ ?_ ?_ ?_
    · simp [renamePat, serPat]
    · intro x ty; simp [renamePat, serPat]
    · intro tag subs ih
      simp [renamePat, serPat, ih.1, ih.2]
    · simp [renamePatList, serPatList]
    · intro p ps ih1 ih2
      simp [renamePatList, serPatList, ih1, ih2.1, ih2.2]
  exact main

theorem hashExpr_rename (r : Nat → Nat) (hinj : Function.Injective r) :
    ∀ (env : List Nat) (e : Expr), wellScoped env e = true →
      hashExpr (List.map r env) (rename r e) = hashExpr env e := by
  refine hashExpr.induct
    (motive_1 := fun env e => wellScoped env e = true →
      hashExpr (List.map r env) (rename r e) = hashExpr env e)
    (motive_2 := fun env cls => wellScopedClauses env cls = true →
      hashClauses (List.map r env) (renameClauses r cls) = hashClauses env cls ∧
        (renameClauses r cls).length = cls.length)
    (motive_3 := fun env es => wellScopedList env es = true →
      hashList (List.map r env) (renameList r es) = hashList env es ∧
        (renameList r es).length = es.length)
    ?_ ?_ ?_ ?_ ?_ ?_ ?_ ?_ ?_ ?_ ?_ ?_ ?_ ?_
  · -- var
    intro env x ty hws
    simp only [wellScoped] at hws
    simp only [rename, hashExpr, varCode, idxOf_map r hinj]
    rcases h : idxOf env x with _ | i
    · rw [h] at hws; simp at hws
    · simp
  · intro env c ty _; simp [rename, hashExpr]
  · intro env g ty _; simp [rename, hashExpr]
  · -- call
    intro env op args ty ih1 ih2 hws
    simp only [wellScoped, Bool.and_eq_true] at hws
    obtain ⟨h2, h3⟩ := ih2 hws.2
    simp [rename, hashExpr, ih1 hws.1, h2, h3]
  · -- let
    intro env v vty value body ty ih1 ih2 hws
    simp only [wellScoped, Bool.and_eq_true] at hws
    have h2 := ih2 hws.2
    simp only [List.map_cons] at h2
    simp [rename, hashExpr, ih1 hws.1, h2]
  · -- if
    intro env c t f ty ih1 ih2 ih3 hws
    simp only [wellScoped, Bool.and_eq_true] at hws
    simp [rename, hashExpr, ih1 hws.1.1, ih2 hws.1.2, ih3 hws.2]
  · -- tuple
    intro env fields ty ih hws
    simp only [wellScoped] at hws
    obtain ⟨h1, h2⟩ := ih hws
    simp [rename, hashExpr, h1, h2]
  · -- func
    intro env ps body retTy attrs ty ih hws
    simp only [wellScoped] at hws
    have henv : List.map Prod.fst (List.map (fun p => (r p.1, p.2)) ps) =
        List.map r (List.map Prod.fst ps) := by
      simp [List.map_map]
    have hih := ih hws
    rw [List.map_append, List.map_reverse] at hih
    have hty : List.map Prod.snd (List.map (fun p => (r p.1, p.2)) ps) =
        List.map Prod.snd ps := by
      simp [List.map_map]
    simp only [rename, hashExpr, henv, hty, List.length_map]
    rw [hih]
  · intro env tag ty _; simp [rename, hashExpr]
  · -- match
    intro env d cls ty ih1 ih2 hws
    simp only [wellScoped, Bool.and_eq_true] at hws
    obtain ⟨h2, h3⟩ := ih2 hws.2
    simp [rename, hashExpr, ih1 hws.1, h2, h3]
  · intro env _; simp [renameList, hashList]
  · -- list cons
    intro env e es ih1 ih2 hws
    simp only [wellScopedList, Bool.and_eq_true] at hws
    obtain ⟨h2, h3⟩ := ih2 hws.2
    simp [renameList, hashList, ih1 hws.1, h2, h3]
  · intro env _; simp [renameClauses, hashClauses]
  · -- clause cons
    intro env p rhs cs ih1 ih2 hws
    simp only [wellScopedClauses, Bool.and_eq_true] at hws
    have henv : List.map Prod.fst (patVars (renamePat r p)) =
        List.map r (List.map Prod.fst (patVars p)) := by
      rw [patVars_renamePat]; simp [List.map_map]
    have hih := ih1 hws.1
    rw [List.map_append, List.map_reverse] at hih
    obtain ⟨h2, h3⟩ := ih2 hws.2
    constructor
    · simp only [renameClauses, hashClauses, serPat_renamePat, henv]
      rw [hih, h2]
    · simp [renameClauses, h3]

/-- Alpha-invariance at the top level: the structural hash (and hence
the derived kernel name) of a closed, well-scoped operator definition is
unchanged by an injective renaming of its variables. -/
theorem structural_hash_rename (r : Nat → Nat) (hinj : Function.Injective r)
    (f : Expr) (hws : wellScoped [] f = true) :
    structural_hash (rename r f) = structural_hash f := by
  have h := hashExpr_rename r hinj [] f hws
  simpa [structural_hash] using h

/-! State evolution: a complete visit call never removes or rewrites an
existing global-map entry, never unregisters a kernel, never touches the
module or the jit oracle, and preserves session well-formedness. -/

/-- Relation between the states before and after any visitor step. -/
structure StEv (st st' : CState) : Prop where
  mod_eq : st'.mod = st.mod
  jitOk_eq : st'.jitOk = st.jitOk
  gv_pres : ∀ g v, alookup st.gvMap g = some v → alookup st'.gvMap g = some v
  reg_mono : ∀ h ∈ st.registered, h ∈ st'.registered
  wf_pres : WfSt st → WfSt st'

theorem stEv_rfl (st : CState) : StEv st st :=
  ⟨rfl, rfl, fun _ _ h => h, fun _ h => h, fun h => h⟩

theorem stEv_trans {s1 s2 s3 : CState} (a : StEv s1 s2) (b : StEv s2 s3) :
    StEv s1 s3 :=
  ⟨b.mod_eq.trans a.mod_eq, b.jitOk_eq.trans a.jitOk_eq,
    fun g v h => b.gv_pres g v (a.gv_pres g v h),
    fun h hm => b.reg_mono h (a.reg_mono h hm),
    fun h => b.wf_pres (a.wf_pres h)⟩

theorem stEv_pushFrame (st : CState) : StEv st (pushFrame st) :=
  ⟨rfl, rfl, fun _ _ h => h, fun _ h => h, fun ⟨a, b, c⟩ => ⟨a, b, c⟩⟩

theorem stEv_addBinding (st : CState) (b : (Nat × RType) × CPPExpr) :
    StEv st (addBinding st b) := by
  unfold addBinding
  rcases st.bindings with _ | ⟨f, rest⟩ <;>
    exact ⟨rfl, rfl, fun _ _ h => h, fun _ h => h, fun ⟨a, b, c⟩ => ⟨a, b, c⟩⟩

theorem stEv_popFrame (st : CState) : StEv st (popFrame st).2 := by
  unfold popFrame
  rcases st.bindings with _ | ⟨f, rest⟩
  · exact stEv_rfl st
  · exact ⟨rfl, rfl, fun _ _ h => h, fun _ h => h, fun ⟨a, b, c⟩ => ⟨a, b, c⟩⟩

theorem stEv_mk_primitive_op (f : Expr) (args : List Expr) (outTy : RType)
    (st : CState) : StEv st (mk_primitive_op f args outTy st).1 := by
  unfold mk_primitive_op
  rcases callingConv f args with _ | ⟨isTup, np⟩
  · exact stEv_rfl st
  · simp only
    split
    · exact stEv_rfl st
    · split
      · exact ⟨rfl, rfl, fun _ _ h => h, fun _ h => List.mem_cons_of_mem _ h,
          fun ⟨a, b, c⟩ => ⟨a, b, c⟩⟩
      · exact ⟨rfl, rfl, fun _ _ h => h, fun _ h => h, fun ⟨a, b, c⟩ => ⟨a, b, c⟩⟩

/-- Inserting the provisional marker for a fresh global preserves the
state-evolution facts and well-formedness. -/
theorem stEv_marker (st : CState) (g : Nat) (hnone : alookup st.gvMap g = none) :
    StEv st { st with gvMap := ainsert st.gvMap g .marker,
                      visitLog := st.visitLog ++ [g] } := by
  have hgk : g ∉ keysOf st.gvMap := (alookup_eq_none_iff _ _).mp hnone
  refine ⟨rfl, rfl, ?_, fun _ h => h, ?_⟩
  · intro h v hl
    have hne : h ≠ g := by
      intro he; subst he; rw [hnone] at hl; exact Option.noConfusion hl
    rw [alookup_ainsert_ne _ _ _ _ hne]; exact hl
  · intro hwf
    have hglog : g ∉ st.visitLog := by
      intro hmem
      have := hwf.logInMap g hmem
      rw [hnone] at this; simp at this
    refine ⟨?_, ?_, ?_⟩
    · simp only
      exact List.Nodup.append hwf.logNodup (List.nodup_singleton g)
        (by simpa [List.disjoint_singleton] using hglog)
    · intro h hmem
      simp only [List.mem_append, List.mem_singleton] at hmem
      rcases hmem with hmem | rfl
      · have := hwf.logInMap h hmem
        rcases hl : alookup st.gvMap h with _ | v
        · rw [hl] at this; simp at this
        · have hne : h ≠ g := by
            intro he; subst he; rw [hnone] at hl; exact Option.noConfusion hl
          simp only
          rw [alookup_ainsert_ne _ _ _ _ hne, hl]; simp
      · simp only
        rw [alookup_ainsert_self]; simp
    · simp only
      rw [keysOf_ainsert_not_mem _ _ _ hgk]
      exact List.Nodup.append hwf.keysNodup (List.nodup_singleton g)
        (by simpa [List.disjoint_singleton] using hgk)

/-- The key preservation lemma: every visitor entry point relates its
input and output states by StEv, whatever the outcome. -/
theorem visit_stEv : ∀ n : Nat,
    (∀ e st, StEv st (visit n e st).1) ∧
    (∀ es st, StEv st (visitList n es st).1) ∧
    (∀ e st, StEv st (visitLet n e st).1) := by
  intro n
  induction n with
  | zero =>
      exact ⟨fun e st => stEv_rfl st, fun es st => stEv_rfl st,
        fun e st => stEv_rfl st⟩
  | succ n ih =>
      obtain ⟨ihV, ihL, ihLet⟩ := ih
      refine ⟨?_, ?_, ?_⟩
      · intro e st
        cases e with
        | var x ty => exact stEv_rfl st
        | constant c ty => exact stEv_rfl st
        | ctor tag ty => exact stEv_rfl st
        | globalVar g ty =>
            simp only [visit]
            by_cases hg : (alookup st.gvMap g).isSome
            · simp [hg]; exact stEv_rfl st
            · have hnone : alookup st.gvMap g = none := by
                rcases h : alookup st.gvMap g with _ | v
                · rfl
                · rw [h] at hg; simp at hg
              simp only [hg, Bool.false_eq_true, if_false]
              set st1 := { st with gvMap := ainsert st.gvMap g .marker,
                                   visitLog := st.visitLog ++ [g] } with hst1
              have e1 : StEv st st1 := stEv_marker st g hnone
              rcases hm : alookup st1.mod g with _ | d
              · exact e1
              · dsimp only
                rcases hv : visit n d st1 with ⟨st2, o⟩
                have e2 : StEv st1 st2 := by
                  have := ihV d st1; rw [hv] at this; exact this
                have e12 := stEv_trans e1 e2
                have hmark : alookup st2.gvMap g = some .marker :=
                  e2.gv_pres g .marker (by
                    rw [hst1]; simp only
                    exact alookup_ainsert_self _ _ _)
                have hgmem : g ∈ keysOf st2.gvMap := by
                  by_contra hc
                  rw [(alookup_eq_none_iff _ _).mpr hc] at hmark
                  exact Option.noConfusion hmark
                cases o with
                | ok cd =>
                    dsimp only
                    refine ⟨e12.mod_eq, e12.jitOk_eq, ?_, ?_, ?_⟩
                    · intro h v hl
                      have hne : h ≠ g := by
                        intro he; subst he
                        rw [hnone] at hl; exact Option.noConfusion hl
                      show alookup (ainsert st2.gvMap g (.done cd)) h = some v
                      rw [alookup_ainsert_ne _ _ _ _ hne]
                      exact e12.gv_pres h v hl
                    · intro h hm
                      exact e12.reg_mono h hm
                    · intro hwf
                      have hwf2 := e12.wf_pres hwf
                      refine ⟨hwf2.logNodup, ?_, ?_⟩
                      · intro h hmem
                        have hs := hwf2.logInMap h hmem
                        by_cases he : h = g
                        · subst he
                          show (alookup (ainsert st2.gvMap h (.done cd)) h).isSome
                          rw [alookup_ainsert_self]; simp
                        · show (alookup (ainsert st2.gvMap g (.done cd)) h).isSome
                          rw [alookup_ainsert_ne _ _ _ _ he]; exact hs
                      · show (keysOf (ainsert st2.gvMap g (.done cd))).Nodup
                        rw [keysOf_ainsert_mem _ _ _ hgmem]
                        exact hwf2.keysNodup
                | err k => exact e12
                | fuelOut => exact e12
        | call op args ty =>
            simp only [visit]
            by_cases hp : is_primitive op
            · simp only [hp, if_true]
              exact stEv_mk_primitive_op op args ty st
            · simp only [hp, Bool.false_eq_true, if_false]
              rcases hargs : visitList n args st with ⟨st1, o⟩
              have e1 : StEv st st1 := by
                have := ihL args st; rw [hargs] at this; exact this
              cases op with
              | ctor tag cty =>
                  cases o <;> exact e1
              | var xid xty =>
                  cases o with
                  | ok cargs =>
                      dsimp only
                      rcases hop : visit n (.var xid xty) st1 with ⟨st2, o2⟩
                      have e2 : StEv st1 st2 := by
                        have := ihV (.var xid xty) st1; rw [hop] at this
                        exact this
                      cases o2 <;> exact stEv_trans e1 e2
                  | err k => exact e1
                  | fuelOut => exact e1
              | constant cv cty =>
                  cases o with
                  | ok cargs =>
                      dsimp only
                      rcases hop : visit n (.constant cv cty) st1 with ⟨st2, o2⟩
                      have e2 : StEv st1 st2 := by
                        have := ihV (.constant cv cty) st1; rw [hop] at this
                        exact this
                      cases o2 <;> exact stEv_trans e1 e2
                  | err k => exact e1
                  | fuelOut => exact e1
              | globalVar gid gty =>
                  cases o with
                  | ok cargs =>
                      dsimp only
                      rcases hop : visit n (.globalVar gid gty) st1 with ⟨st2, o2⟩
                      have e2 : StEv st1 st2 := by
                        have := ihV (.globalVar gid gty) st1; rw [hop] at this
                        exact this
                      cases o2 <;> exact stEv_trans e1 e2
                  | err k => exact e1
                  | fuelOut => exact e1
              | call op2 args2 cty =>
                  cases o with
                  | ok cargs =>
                      dsimp only
                      rcases hop : visit n (.call op2 args2 cty) st1 with ⟨st2, o2⟩
                      have e2 : StEv st1 st2 := by
                        have := ihV (.call op2 args2 cty) st1; rw [hop] at this
                        exact this
                      cases o2 <;> exact stEv_trans e1 e2
                  | err k => exact e1
                  | fuelOut => exact e1
              | letE lv lvty lval lbody lty =>
                  cases o with
                  | ok cargs =>
                      dsimp only
                      rcases hop : visit n (.letE lv lvty lval lbody lty) st1
                        with ⟨st2, o2⟩
                      have e2 : StEv st1 st2 := by
                        have := ihV (.letE lv lvty lval lbody lty) st1
                        rw [hop] at this; exact this
                      cases o2 <;> exact stEv_trans e1 e2
                  | err k => exact e1
                  | fuelOut => exact e1
              | ifE ic it ifl cty =>
                  cases o with
                  | ok cargs =>
                      dsimp only
                      rcases hop : visit n (.ifE ic it ifl cty) st1 with ⟨st2, o2⟩
                      have e2 : StEv st1 st2 := by
                        have := ihV (.ifE ic it ifl cty) st1; rw [hop] at this
                        exact this
                      cases o2 <;> exact stEv_trans e1 e2
                  | err k => exact e1
                  | fuelOut => exact e1
              | tupleE tfs cty =>
                  cases o with
                  | ok cargs =>
                      dsimp only
                      rcases hop : visit n (.tupleE tfs cty) st1 with ⟨st2, o2⟩
                      have e2 : StEv st1 st2 := by
                        have := ihV (.tupleE tfs cty) st1; rw [hop] at this
                        exact this
                      cases o2 <;> exact stEv_trans e1 e2
                  | err k => exact e1
                  | fuelOut => exact e1
              | func fps fb frt fattrs fty =>
                  cases o with
                  | ok cargs =>
                      dsimp only
                      rcases hop : visit n (.func fps fb frt fattrs fty) st1
                        with ⟨st2, o2⟩
                      have e2 : StEv st1 st2 := by
                        have := ihV (.func fps fb frt fattrs fty) st1
                        rw [hop] at this; exact this
                      cases o2 <;> exact stEv_trans e1 e2
                  | err k => exact e1
                  | fuelOut => exact e1
              | matchE md mcls mty =>
                  cases o with
                  | ok cargs =>
                      dsimp only
                      rcases hop : visit n (.matchE md mcls mty) st1 with ⟨st2, o2⟩
                      have e2 : StEv st1 st2 := by
                        have := ihV (.matchE md mcls mty) st1; rw [hop] at this
                        exact this
                      cases o2 <;> exact stEv_trans e1 e2
                  | err k => exact e1
                  | fuelOut => exact e1
        | letE v vty value body ty =>
            simp only [visit]
            exact stEv_trans (stEv_pushFrame st) (ihLet _ (pushFrame st))
        | ifE c t f ty =>
            simp only [visit]
            rcases h1 : visit n c st with ⟨st1, o1⟩
            have e1 : StEv st st1 := by
              have := ihV c st; rw [h1] at this; exact this
            cases o1 with
            | ok cc =>
                dsimp only
                rcases h2 : visit n t st1 with ⟨st2, o2⟩
                have e2 : StEv st1 st2 := by
                  have := ihV t st1; rw [h2] at this; exact this
                cases o2 with
                | ok ct =>
                    dsimp only
                    rcases h3 : visit n f st2 with ⟨st3, o3⟩
                    have e3 : StEv st2 st3 := by
                      have := ihV f st2; rw [h3] at this; exact this
                    cases o3 <;> exact stEv_trans (stEv_trans e1 e2) e3
                | err k => exact stEv_trans e1 e2
                | fuelOut => exact stEv_trans e1 e2
            | err k => exact e1
            | fuelOut => exact e1
        | tupleE fields ty =>
            simp only [visit]
            rcases h1 : visitList n fields st with ⟨st1, o1⟩
            have e1 : StEv st st1 := by
              have := ihL fields st; rw [h1] at this; exact this
            cases o1 <;> exact e1
        | func ps body retTy attrs fty =>
            simp only [visit]
            by_cases hp : is_primitive (.func ps body retTy attrs fty)
            · simp only [hp, if_true]
              split
              all_goals
                rename_i st1 hmatch heq
                have e1 := stEv_mk_primitive_op (.func ps body retTy attrs fty)
                  (ps.map fun p => Expr.var p.1 p.2) retTy st
                rw [heq] at e1
                exact e1
            · simp only [hp, Bool.false_eq_true, if_false]
              rcases h1 : visit n body st with ⟨st1, o1⟩
              have e1 : StEv st st1 := by
                have := ihV body st; rw [h1] at this; exact this
              cases o1 <;> exact e1
        | matchE d cls ty =>
            simp only [visit]
            rcases h1 : visit n d st with ⟨st1, o1⟩
            have e1 : StEv st st1 := by
              have := ihV d st; rw [h1] at this; exact this
            cases o1 with
            | ok cd =>
                dsimp only
                rcases h2 : visitList n (cls.map Prod.snd) st1 with ⟨st2, o2⟩
                have e2 : StEv st1 st2 := by
                  have := ihL (cls.map Prod.snd) st1; rw [h2] at this; exact this
                cases o2 <;> exact stEv_trans e1 e2
            | err k => exact e1
            | fuelOut => exact e1
      · intro es st
        cases es with
        | nil => exact stEv_rfl st
        | cons e rest =>
            simp only [visitList]
            rcases h1 : visit n e st with ⟨st1, o1⟩
            have e1 : StEv st st1 := by
              have := ihV e st; rw [h1] at this; exact this
            cases o1 with
            | ok c =>
                dsimp only
                rcases h2 : visitList n rest st1 with ⟨st2, o2⟩
                have e2 : StEv st1 st2 := by
                  have := ihL rest st1; rw [h2] at this; exact this
                cases o2 <;> exact stEv_trans e1 e2
            | err k => exact e1
            | fuelOut => exact e1
      · intro e st
        cases e with
        | letE v vty value body ty =>
            simp only [visitLet]
            rcases h1 : visit n value st with ⟨st1, o1⟩
            have e1 : StEv st st1 := by
              have := ihV value st; rw [h1] at this; exact this
            cases o1 with
            | ok cv =>
                dsimp only
                exact stEv_trans
                  (stEv_trans e1 (stEv_addBinding st1 ((v, vty), cv)))
                  (ihLet body (addBinding st1 ((v, vty), cv)))
            | err k => exact e1
            | fuelOut => exact e1
        | var x ty =>
            simp only [visitLet]
            rcases h1 : visit n (.var x ty) (popFrame st).2 with ⟨st1, o1⟩
            have e1 : StEv (popFrame st).2 st1 := by
              have := ihV (.var x ty) (popFrame st).2; rw [h1] at this; exact this
            cases o1 <;> exact stEv_trans (stEv_popFrame st) e1
        | constant c ty =>
            simp only [visitLet]
            rcases h1 : visit n (.constant c ty) (popFrame st).2 with ⟨st1, o1⟩
            have e1 : StEv (popFrame st).2 st1 := by
              have := ihV (.constant c ty) (popFrame st).2; rw [h1] at this; exact this
            cases o1 <;> exact stEv_trans (stEv_popFrame st) e1
        | globalVar g ty =>
            simp only [visitLet]
            rcases h1 : visit n (.globalVar g ty) (popFrame st).2 with ⟨st1, o1⟩
            have e1 : StEv (popFrame st).2 st1 := by
              have := ihV (.globalVar g ty) (popFrame st).2; rw [h1] at this; exact this
            cases o1 <;> exact stEv_trans (stEv_popFrame st) e1
        | call op args ty =>
            simp only [visitLet]
            rcases h1 : visit n (.call op args ty) (popFrame st).2 with ⟨st1, o1⟩
            have e1 : StEv (popFrame st).2 st1 := by
              have := ihV (.call op args ty) (popFrame st).2; rw [h1] at this; exact this
            cases o1 <;> exact stEv_trans (stEv_popFrame st) e1
        | ifE c t f ty =>
            simp only [visitLet]
            rcases h1 : visit n (.ifE c t f ty) (popFrame st).2 with ⟨st1, o1⟩
            have e1 : StEv (popFrame st).2 st1 := by
              have := ihV (.ifE c t f ty) (popFrame st).2; rw [h1] at this; exact this
            cases o1 <;> exact stEv_trans (stEv_popFrame st) e1
        | tupleE fields ty =>
            simp only [visitLet]
            rcases h1 : visit n (.tupleE fields ty) (popFrame st).2 with ⟨st1, o1⟩
            have e1 : StEv (popFrame st).2 st1 := by
              have := ihV (.tupleE fields ty) (popFrame st).2; rw [h1] at this; exact this
            cases o1 <;> exact stEv_trans (stEv_popFrame st) e1
        | func ps body retTy attrs fty =>
            simp only [visitLet]
            rcases h1 : visit n (.func ps body retTy attrs fty) (popFrame st).2
              with ⟨st1, o1⟩
            have e1 : StEv (popFrame st).2 st1 := by
              have := ihV (.func ps body retTy attrs fty) (popFrame st).2; rw [h1] at this; exact this
            cases o1 <;> exact stEv_trans (stEv_popFrame st) e1
        | ctor tag ty =>
            simp only [visitLet]
            rcases h1 : visit n (.ctor tag ty) (popFrame st).2 with ⟨st1, o1⟩
            have e1 : StEv (popFrame st).2 st1 := by
              have := ihV (.ctor tag ty) (popFrame st).2; rw [h1] at this; exact this
            cases o1 <;> exact stEv_trans (stEv_popFrame st) e1
        | matchE d cls ty =>
            simp only [visitLet]
            rcases h1 : visit n (.matchE d cls ty) (popFrame st).2 with ⟨st1, o1⟩
            have e1 : StEv (popFrame st).2 st1 := by
              have := ihV (.matchE d cls ty) (popFrame st).2; rw [h1] at this; exact this
            cases o1 <;> exact stEv_trans (stEv_popFrame st) e1

/-- mk_primitive_op only touches the operator cache and the jit counter:
module, global map, binding stack and visit log pass through unchanged. -/
theorem mk_primitive_op_state (f : Expr) (args : List Expr) (outTy : RType)
    (st : CState) :
    (mk_primitive_op f args outTy st).1.mod = st.mod ∧
    (mk_primitive_op f args outTy st).1.gvMap = st.gvMap ∧
    (mk_primitive_op f args outTy st).1.bindings = st.bindings ∧
    (mk_primitive_op f args outTy st).1.visitLog = st.visitLog := by
  unfold mk_primitive_op
  rcases callingConv f args with _ | ⟨isTup, np⟩
  · exact ⟨rfl, rfl, rfl, rfl⟩
  · simp only
    split
    · exact ⟨rfl, rfl, rfl, rfl⟩
    · split <;> exact ⟨rfl, rfl, rfl, rfl⟩

/-- addBinding only rewrites the top frame. -/
theorem addBinding_bindings_tail (st : CState) (b : (Nat × RType) × CPPExpr) :
    (addBinding st b).bindings.tail = st.bindings.tail := by
  unfold addBinding
  rcases st.bindings with _ | ⟨f, rest⟩ <;> rfl

/-- Binding-stack balance: a successful visit leaves the binding stack
exactly as it found it (every push is matched by the pop of the same
visit_let activation), and a successful visitLet pops exactly the frame
pushed on its behalf. -/
theorem visit_bindings : ∀ n : Nat,
    (∀ e st st2 c, visit n e st = (st2, .ok c) → st2.bindings = st.bindings) ∧
    (∀ es st st2 cs, visitList n es st = (st2, .ok cs) →
      st2.bindings = st.bindings) ∧
    (∀ e st st2 c, visitLet n e st = (st2, .ok c) →
      st2.bindings = st.bindings.tail) := by
  intro n
  induction n with
  | zero =>
      refine ⟨?_, ?_, ?_⟩ <;> intro a st st2 c h <;> simp [visit, visitList, visitLet] at h
  | succ n ih =>
      obtain ⟨ihV, ihL, ihLet⟩ := ih
      refine ⟨?_, ?_, ?_⟩
      · intro e st st2 cres h
        cases e with
        | var x ty => simp only [visit] at h; cases h; rfl
        | constant c ty => simp only [visit] at h; cases h; rfl
        | ctor tag ty => simp only [visit] at h; simp at h
        | globalVar g ty =>
            simp only [visit] at h
            by_cases hg : (alookup st.gvMap g).isSome
            · simp only [hg, if_true] at h; cases h; rfl
            · simp only [hg, Bool.false_eq_true, if_false] at h
              rcases hm : alookup
                  ({ st with gvMap := ainsert st.gvMap g .marker,
                             visitLog := st.visitLog ++ [g] } : CState).mod g
                with _ | d
              · rw [hm] at h; simp at h
              · rw [hm] at h
                dsimp only at h
                rcases hv : visit n d { st with gvMap := ainsert st.gvMap g .marker,
                                                visitLog := st.visitLog ++ [g] }
                  with ⟨s2, o⟩
                rw [hv] at h
                cases o with
                | ok cd =>
                    dsimp only at h
                    have hb := ihV _ _ _ _ hv
                    simp only [Prod.mk.injEq] at h
                    rw [← h.1]
                    exact hb
                | err k => simp at h
                | fuelOut => simp at h
        | call op args ty =>
            simp only [visit] at h
            by_cases hp : is_primitive op
            · simp only [hp, if_true] at h
              have hmk := (mk_primitive_op_state op args ty st).2.2.1
              rcases hq : mk_primitive_op op args ty st with ⟨s1, o⟩
              rw [hq] at h hmk
              cases o with
              | ok b => cases h; exact hmk
              | err k => simp at h
              | fuelOut => simp at h
            · simp only [hp, Bool.false_eq_true, if_false] at h
              rcases hargs : visitList n args st with ⟨s1, o⟩
              cases op with
              | ctor tag cty =>
                  rw [hargs] at h
                  cases o with
                  | ok cargs =>
                      dsimp only at h
                      simp only [Prod.mk.injEq] at h
                      rw [← h.1]
                      exact ihL _ _ _ _ hargs
                  | err k => simp at h
                  | fuelOut => simp at h
              | var xid xty =>
                  rw [hargs] at h
                  cases o with
                  | ok cargs =>
                      dsimp only at h
                      rcases hop : visit n (.var xid xty) s1 with ⟨s2, o2⟩
                      rw [hop] at h
                      cases o2 with
                      | ok cfn =>
                          dsimp only at h
                          simp only [Prod.mk.injEq] at h
                          rw [← h.1, ihV _ _ _ _ hop]
                          exact ihL _ _ _ _ hargs
                      | err k => simp at h
                      | fuelOut => simp at h
                  | err k => simp at h
                  | fuelOut => simp at h
              | constant cv cty =>
                  rw [hargs] at h
                  cases o with
                  | ok cargs =>
                      dsimp only at h
                      rcases hop : visit n (.constant cv cty) s1 with ⟨s2, o2⟩
                      rw [hop] at h
                      cases o2 with
                      | ok cfn =>
                          dsimp only at h
                          simp only [Prod.mk.injEq] at h
                          rw [← h.1, ihV _ _ _ _ hop]
                          exact ihL _ _ _ _ hargs
                      | err k => simp at h
                      | fuelOut => simp at h
                  | err k => simp at h
                  | fuelOut => simp at h
              | globalVar gid gty =>
                  rw [hargs] at h
                  cases o with
                  | ok cargs =>
                      dsimp only at h
                      rcases hop : visit n (.globalVar gid gty) s1 with ⟨s2, o2⟩
                      rw [hop] at h
                      cases o2 with
                      | ok cfn =>
                          dsimp only at h
                          simp only [Prod.mk.injEq] at h
                          rw [← h.1, ihV _ _ _ _ hop]
                          exact ihL _ _ _ _ hargs
                      | err k => simp at h
                      | fuelOut => simp at h
                  | err k => simp at h
                  | fuelOut => simp at h
              | call op2 args2 cty =>
                  rw [hargs] at h
                  cases o with
                  | ok cargs =>
                      dsimp only at h
                      rcases hop : visit n (.call op2 args2 cty) s1 with ⟨s2, o2⟩
                      rw [hop] at h
                      cases o2 with
                      | ok cfn =>
                          dsimp only at h
                          simp only [Prod.mk.injEq] at h
                          rw [← h.1, ihV _ _ _ _ hop]
                          exact ihL _ _ _ _ hargs
                      | err k => simp at h
                      | fuelOut => simp at h
                  | err k => simp at h
                  | fuelOut => simp at h
              | letE lv lvty lval lbody lty =>
                  rw [hargs] at h
                  cases o with
                  | ok cargs =>
                      dsimp only at h
                      rcases hop : visit n (.letE lv lvty lval lbody lty) s1
                        with ⟨s2, o2⟩
                      rw [hop] at h
                      cases o2 with
                      | ok cfn =>
                          dsimp only at h
                          simp only [Prod.mk.injEq] at h
                          rw [← h.1, ihV _ _ _ _ hop]
                          exact ihL _ _ _ _ hargs
                      | err k => simp at h
                      | fuelOut => simp at h
                  | err k => simp at h
                  | fuelOut => simp at h
              | ifE ic it ifl cty =>
                  rw [hargs] at h
                  cases o with
                  | ok cargs =>
                      dsimp only at h
                      rcases hop : visit n (.ifE ic it ifl cty) s1 with ⟨s2, o2⟩
                      rw [hop] at h
                      cases o2 with
                      | ok cfn =>
                          dsimp only at h
                          simp only [Prod.mk.injEq] at h
                          rw [← h.1, ihV _ _ _ _ hop]
                          exact ihL _ _ _ _ hargs
                      | err k => simp at h
                      | fuelOut => simp at h
                  | err k => simp at h
                  | fuelOut => simp at h
              | tupleE tfs cty =>
                  rw [hargs] at h
                  cases o with
                  | ok cargs =>
                      dsimp only at h
                      rcases hop : visit n (.tupleE tfs cty) s1 with ⟨s2, o2⟩
                      rw [hop] at h
                      cases o2 with
                      | ok cfn =>
                          dsimp only at h
                          simp only [Prod.mk.injEq] at h
                          rw [← h.1, ihV _ _ _ _ hop]
                          exact ihL _ _ _ _ hargs
                      | err k => simp at h
                      | fuelOut => simp at h
                  | err k => simp at h
                  | fuelOut => simp at h
              | func fps fb frt fattrs ffty =>
                  rw [hargs] at h
                  cases o with
                  | ok cargs =>
                      dsimp only at h
                      rcases hop : visit n (.func fps fb frt fattrs ffty) s1
                        with ⟨s2, o2⟩
                      rw [hop] at h
                      cases o2 with
                      | ok cfn =>
                          dsimp only at h
                          simp only [Prod.mk.injEq] at h
                          rw [← h.1, ihV _ _ _ _ hop]
                          exact ihL _ _ _ _ hargs
                      | err k => simp at h
                      | fuelOut => simp at h
                  | err k => simp at h
                  | fuelOut => simp at h
              | matchE md mcls mty =>
                  rw [hargs] at h
                  cases o with
                  | ok cargs =>
                      dsimp only at h
                      rcases hop : visit n (.matchE md mcls mty) s1 with ⟨s2, o2⟩
                      rw [hop] at h
                      cases o2 with
                      | ok cfn =>
                          dsimp only at h
                          simp only [Prod.mk.injEq] at h
                          rw [← h.1, ihV _ _ _ _ hop]
                          exact ihL _ _ _ _ hargs
                      | err k => simp at h
                      | fuelOut => simp at h
                  | err k => simp at h
                  | fuelOut => simp at h
        | letE v vty value body ty =>
            simp only [visit] at h
            have hb := ihLet _ _ _ _ h
            simpa [pushFrame] using hb
        | ifE c t f ty =>
            simp only [visit] at h
            rcases h1 : visit n c st with ⟨s1, o1⟩
            rw [h1] at h
            cases o1 with
            | ok cc =>
                dsimp only at h
                rcases h2 : visit n t s1 with ⟨s2, o2⟩
                rw [h2] at h
                cases o2 with
                | ok ct =>
                    dsimp only at h
                    rcases h3 : visit n f s2 with ⟨s3, o3⟩
                    rw [h3] at h
                    cases o3 with
                    | ok cf =>
                        dsimp only at h
                        simp only [Prod.mk.injEq] at h
                        rw [← h.1, ihV _ _ _ _ h3, ihV _ _ _ _ h2]
                        exact ihV _ _ _ _ h1
                    | err k => simp at h
                    | fuelOut => simp at h
                | err k => simp at h
                | fuelOut => simp at h
            | err k => simp at h
            | fuelOut => simp at h
        | tupleE fields ty =>
            simp only [visit] at h
            rcases h1 : visitList n fields st with ⟨s1, o1⟩
            rw [h1] at h
            cases o1 with
            | ok cfs =>
                dsimp only at h
                simp only [Prod.mk.injEq] at h
                rw [← h.1]
                exact ihL _ _ _ _ h1
            | err k => simp at h
            | fuelOut => simp at h
        | func ps body retTy attrs fty =>
            simp only [visit] at h
            by_cases hp : is_primitive (.func ps body retTy attrs fty)
            · simp only [hp, if_true] at h
              have hmk := (mk_primitive_op_state (.func ps body retTy attrs fty)
                (ps.map fun p => Expr.var p.1 p.2) retTy st).2.2.1
              rcases hq : mk_primitive_op (.func ps body retTy attrs fty)
                  (ps.map fun p => Expr.var p.1 p.2) retTy st with ⟨s1, o⟩
              rw [hq] at h hmk
              cases o with
              | ok b =>
                  dsimp only at h
                  simp only [Prod.mk.injEq] at h
                  rw [← h.1]
                  exact hmk
              | err k => simp at h
              | fuelOut => simp at h
            · simp only [hp, Bool.false_eq_true, if_false] at h
              rcases h1 : visit n body st with ⟨s1, o1⟩
              rw [h1] at h
              cases o1 with
              | ok cb =>
                  dsimp only at h
                  simp only [Prod.mk.injEq] at h
                  rw [← h.1]
                  exact ihV _ _ _ _ h1
              | err k => simp at h
              | fuelOut => simp at h
        | matchE d cls ty =>
            simp only [visit] at h
            rcases h1 : visit n d st with ⟨s1, o1⟩
            rw [h1] at h
            cases o1 with
            | ok cd =>
                dsimp only at h
                rcases h2 : visitList n (cls.map Prod.snd) s1 with ⟨s2, o2⟩
                rw [h2] at h
                cases o2 with
                | ok crs =>
                    dsimp only at h
                    simp only [Prod.mk.injEq] at h
                    rw [← h.1, ihL _ _ _ _ h2]
                    exact ihV _ _ _ _ h1
                | err k => simp at h
                | fuelOut => simp at h
            | err k => simp at h
            | fuelOut => simp at h
      · intro es st st2 cres h
        cases es with
        | nil => simp only [visitList] at h; cases h; rfl
        | cons e rest =>
            simp only [visitList] at h
            rcases h1 : visit n e st with ⟨s1, o1⟩
            rw [h1] at h
            cases o1 with
            | ok c =>
                dsimp only at h
                rcases h2 : visitList n rest s1 with ⟨s2, o2⟩
                rw [h2] at h
                cases o2 with
                | ok cs =>
                    dsimp only at h
                    simp only [Prod.mk.injEq] at h
                    rw [← h.1, ihL _ _ _ _ h2]
                    exact ihV _ _ _ _ h1
                | err k => simp at h
                | fuelOut => simp at h
            | err k => simp at h
            | fuelOut => simp at h
      · intro e st st2 cres h
        cases e with
        | letE v vty value body ty =>
            simp only [visitLet] at h
            rcases h1 : visit n value st with ⟨s1, o1⟩
            rw [h1] at h
            cases o1 with
            | ok cv =>
                dsimp only at h
                have hb := ihLet _ _ _ _ h
                rw [hb, addBinding_bindings_tail, ihV _ _ _ _ h1]
            | err k => simp at h
            | fuelOut => simp at h
        | var x ty =>
            simp only [visitLet] at h
            rcases h1 : visit n (.var x ty) (popFrame st).2 with ⟨s1, o1⟩
            rw [h1] at h
            cases o1 with
            | ok cb =>
                dsimp only at h
                simp only [Prod.mk.injEq] at h
                rw [← h.1, ihV _ _ _ _ h1]
                unfold popFrame
                rcases hsb : st.bindings with _ | ⟨fr, rest⟩ <;> simp [hsb]
            | err k => simp at h
            | fuelOut => simp at h
        | constant c ty =>
            simp only [visitLet] at h
            rcases h1 : visit n (.constant c ty) (popFrame st).2 with ⟨s1, o1⟩
            rw [h1] at h
            cases o1 with
            | ok cb =>
                dsimp only at h
                simp only [Prod.mk.injEq] at h
                rw [← h.1, ihV _ _ _ _ h1]
                unfold popFrame
                rcases hsb : st.bindings with _ | ⟨fr, rest⟩ <;> simp [hsb]
            | err k => simp at h
            | fuelOut => simp at h
        | globalVar g ty =>
            simp only [visitLet] at h
            rcases h1 : visit n (.globalVar g ty) (popFrame st).2 with ⟨s1, o1⟩
            rw [h1] at h
            cases o1 with
            | ok cb =>
                dsimp only at h
                simp only [Prod.mk.injEq] at h
                rw [← h.1, ihV _ _ _ _ h1]
                unfold popFrame
                rcases hsb : st.bindings with _ | ⟨fr, rest⟩ <;> simp [hsb]
            | err k => simp at h
            | fuelOut => simp at h
        | call op args ty =>
            simp only [visitLet] at h
            rcases h1 : visit n (.call op args ty) (popFrame st).2 with ⟨s1, o1⟩
            rw [h1] at h
            cases o1 with
            | ok cb =>
                dsimp only at h
                simp only [Prod.mk.injEq] at h
                rw [← h.1, ihV _ _ _ _ h1]
                unfold popFrame
                rcases hsb : st.bindings with _ | ⟨fr, rest⟩ <;> simp [hsb]
            | err k => simp at h
            | fuelOut => simp at h
        | ifE c t f ty =>
            simp only [visitLet] at h
            rcases h1 : visit n (.ifE c t f ty) (popFrame st).2 with ⟨s1, o1⟩
            rw [h1] at h
            cases o1 with
            | ok cb =>
                dsimp only at h
                simp only [Prod.mk.injEq] at h
                rw [← h.1, ihV _ _ _ _ h1]
                unfold popFrame
                rcases hsb : st.bindings with _ | ⟨fr, rest⟩ <;> simp [hsb]
            | err k => simp at h
            | fuelOut => simp at h
        | tupleE fields ty =>
            simp only [visitLet] at h
            rcases h1 : visit n (.tupleE fields ty) (popFrame st).2 with ⟨s1, o1⟩
            rw [h1] at h
            cases o1 with
            | ok cb =>
                dsimp only at h
                simp only [Prod.mk.injEq] at h
                rw [← h.1, ihV _ _ _ _ h1]
                unfold popFrame
                rcases hsb : st.bindings with _ | ⟨fr, rest⟩ <;> simp [hsb]
            | err k => simp at h
            | fuelOut => simp at h
        | func ps body retTy attrs fty =>
            simp only [visitLet] at h
            rcases h1 : visit n (.func ps body retTy attrs fty) (popFrame st).2
              with ⟨s1, o1⟩
            rw [h1] at h
            cases o1 with
            | ok cb =>
                dsimp only at h
                simp only [Prod.mk.injEq] at h
                rw [← h.1, ihV _ _ _ _ h1]
                unfold popFrame
                rcases hsb : st.bindings with _ | ⟨fr, rest⟩ <;> simp [hsb]
            | err k => simp at h
            | fuelOut => simp at h
        | ctor tag ty =>
            simp only [visitLet] at h
            rcases h1 : visit n (.ctor tag ty) (popFrame st).2 with ⟨s1, o1⟩
            rw [h1] at h
            cases o1 with
            | ok cb =>
                dsimp only at h
                simp only [Prod.mk.injEq] at h
                rw [← h.1, ihV _ _ _ _ h1]
                unfold popFrame
                rcases hsb : st.bindings with _ | ⟨fr, rest⟩ <;> simp [hsb]
            | err k => simp at h
            | fuelOut => simp at h
        | matchE d cls ty =>
            simp only [visitLet] at h
            rcases h1 : visit n (.matchE d cls ty) (popFrame st).2 with ⟨s1, o1⟩
            rw [h1] at h
            cases o1 with
            | ok cb =>
                dsimp only at h
                simp only [Prod.mk.injEq] at h
                rw [← h.1, ihV _ _ _ _ h1]
                unfold popFrame
                rcases hsb : st.bindings with _ | ⟨fr, rest⟩ <;> simp [hsb]
            | err k => simp at h
            | fuelOut => simp at h

/-! Fuel sufficiency: enough fuel rules out the fuelOut outcome, which
shows the Python code's unbounded recursion terminates. -/

theorem mk_primitive_op_not_fuelOut (f : Expr) (args : List Expr)
    (outTy : RType) (st : CState) :
    (mk_primitive_op f args outTy st).2 ≠ .fuelOut := by
  unfold mk_primitive_op
  rcases callingConv f args with _ | ⟨isTup, np⟩
  · simp
  · simp only
    split
    · simp
    · split <;> simp

theorem esizeList_map_snd : ∀ cls : List (Pat × Expr),
    esizeList (cls.map Prod.snd) = esizeClauses cls := by
  intro cls
  induction cls with
  | nil => simp [esizeList, esizeClauses]
  | cons c cs ih =>
      obtain ⟨p, rhs⟩ := c
      simp [esizeList, esizeClauses, ih]

theorem unvisitedWeight_congr (st st' : CState) (hm : st'.mod = st.mod)
    (hg : st'.gvMap = st.gvMap) : unvisitedWeight st' = unvisitedWeight st := by
  unfold unvisitedWeight
  rw [hm, hg]

theorem unvisitedWeight_pushFrame (st : CState) :
    unvisitedWeight (pushFrame st) = unvisitedWeight st :=
  unvisitedWeight_congr _ _ rfl rfl

theorem unvisitedWeight_addBinding (st : CState) (b : (Nat × RType) × CPPExpr) :
    unvisitedWeight (addBinding st b) = unvisitedWeight st := by
  unfold addBinding
  rcases st.bindings with _ | ⟨f, rest⟩ <;> exact unvisitedWeight_congr _ _ rfl rfl

theorem unvisitedWeight_popFrame (st : CState) :
    unvisitedWeight (popFrame st).2 = unvisitedWeight st := by
  unfold popFrame
  rcases st.bindings with _ | ⟨f, rest⟩
  · rfl
  · exact unvisitedWeight_congr _ _ rfl rfl

theorem unvisitedWeight_mono {st st' : CState} (h : StEv st st') :
    unvisitedWeight st' ≤ unvisitedWeight st := by
  unfold unvisitedWeight
  rw [h.mod_eq]
  apply List.sum_le_sum
  intro gd _
  by_cases hs : (alookup st.gvMap gd.1).isSome
  · obtain ⟨v, hv⟩ := Option.isSome_iff_exists.mp hs
    have := h.gv_pres gd.1 v hv
    simp [hs, Option.isSome_iff_exists.mpr ⟨v, this⟩]
  · by_cases hs2 : (alookup st'.gvMap gd.1).isSome <;> simp [hs, hs2]

theorem uwList_insert_le (mod : List (Nat × Expr)) (m : List (Nat × GvEntry))
    (g : Nat) :
    (mod.map fun gd =>
      if (alookup (ainsert m g .marker) gd.1).isSome then 0
      else 3 * esize gd.2 + 1).sum ≤
    (mod.map fun gd =>
      if (alookup m gd.1).isSome then 0 else 3 * esize gd.2 + 1).sum := by
  apply List.sum_le_sum
  intro gd _
  by_cases hk : gd.1 = g
  · rw [hk, alookup_ainsert_self]
    simp
  · rw [alookup_ainsert_ne _ _ _ _ hk]

/-- Marking a fresh global that is present in the module strictly lowers
the unvisited weight by at least that definition's weight. -/
theorem unvisitedWeight_marker (mod : List (Nat × Expr))
    (m : List (Nat × GvEntry)) (g : Nat) (d : Expr)
    (hnone : alookup m g = none) (hmod : alookup mod g = some d) :
    (mod.map fun gd =>
      if (alookup (ainsert m g .marker) gd.1).isSome then 0
      else 3 * esize gd.2 + 1).sum + (3 * esize d + 1) ≤
    (mod.map fun gd =>
      if (alookup m gd.1).isSome then 0 else 3 * esize gd.2 + 1).sum := by
  induction mod with
  | nil => simp [alookup] at hmod
  | cons kw rest ih =>
      obtain ⟨k, w⟩ := kw
      by_cases hk : k = g
      · subst hk
        have hmod2 : w = d := by simpa [alookup] using hmod
        subst hmod2
        simp only [List.map_cons, List.sum_cons]
        rw [alookup_ainsert_self]
        simp only [Option.isSome_some, if_true, hnone]
        have htail := uwList_insert_le rest m k
        simp [Option.isSome_none, hnone]
        omega
      · simp only [alookup, if_neg hk] at hmod
        have := ih hmod
        simp only [List.map_cons, List.sum_cons]
        rw [alookup_ainsert_ne _ _ _ _ hk]
        omega

/-- Fuel sufficiency for the three visitor entry points: with fuel at
least three times the node count plus the weight of not-yet-visited
globals, the visitor never runs out of fuel.  This is the termination
theorem for the source's unbounded recursion. -/
theorem visit_fuel : ∀ n : Nat,
    (∀ e st, 3 * esize e + unvisitedWeight st ≤ n →
      (visit n e st).2 ≠ .fuelOut) ∧
    (∀ es st, 3 * esizeList es + 1 + unvisitedWeight st ≤ n →
      (visitList n es st).2 ≠ .fuelOut) ∧
    (∀ e st, (e.isLet = true → 3 * esize e + unvisitedWeight st ≤ n + 1) →
      (e.isLet = false → 3 * esize e + 1 + unvisitedWeight st ≤ n) →
      (visitLet n e st).2 ≠ .fuelOut) := by
  intro n
  induction n with
  | zero =>
      refine ⟨?_, ?_, ?_⟩
      · intro e st hb
        have := esize_pos e
        omega
      · intro es st hb
        omega
      · intro e st hb1 hb2
        cases e with
        | letE v vty value body ty =>
            have h1 := hb1 rfl
            simp only [esize] at h1
            omega
        | var x ty => have h2 := hb2 rfl; omega
        | constant c ty => have h2 := hb2 rfl; omega
        | globalVar g ty => have h2 := hb2 rfl; omega
        | call op args ty => have h2 := hb2 rfl; omega
        | ifE c t f ty => have h2 := hb2 rfl; omega
        | tupleE fields ty => have h2 := hb2 rfl; omega
        | func ps body retTy attrs fty => have h2 := hb2 rfl; omega
        | ctor tag ty => have h2 := hb2 rfl; omega
        | matchE d cls ty => have h2 := hb2 rfl; omega
  | succ n ih =>
      obtain ⟨ihV, ihL, ihLet⟩ := ih
      refine ⟨?_, ?_, ?_⟩
      · intro e st hb
        cases e with
        | var x ty => simp [visit]
        | constant c ty => simp [visit]
        | ctor tag ty => simp [visit]
        | globalVar g ty =>
            simp only [visit]
            by_cases hg : (alookup st.gvMap g).isSome
            · simp [hg]
            · have hnone : alookup st.gvMap g = none := by
                rcases hq : alookup st.gvMap g with _ | v
                · rfl
                · rw [hq] at hg; simp at hg
              simp only [hg, Bool.false_eq_true, if_false]
              rcases hm : alookup
                  ({ st with gvMap := ainsert st.gvMap g .marker,
                             visitLog := st.visitLog ++ [g] } : CState).mod g
                with _ | d
              · simp [hm]
              · dsimp only
                simp only [esize] at hb
                have hmod : alookup st.mod g = some d := hm
                have hless := unvisitedWeight_marker st.mod st.gvMap g d hnone hmod
                have hsub : 3 * esize d + unvisitedWeight
                    { st with gvMap := ainsert st.gvMap g .marker,
                              visitLog := st.visitLog ++ [g] } ≤ n := by
                  unfold unvisitedWeight at hb ⊢
                  dsimp only at hb ⊢
                  omega
                rcases hv : visit n d { st with gvMap := ainsert st.gvMap g .marker,
                                                visitLog := st.visitLog ++ [g] }
                  with ⟨s2, o⟩
                cases o with
                | ok cd => simp
                | err k => simp
                | fuelOut =>
                    have := ihV d _ hsub
                    rw [hv] at this
                    simp at this
        | call op args ty =>
            simp only [visit]
            by_cases hp : is_primitive op
            · simp only [hp, if_true]
              exact mk_primitive_op_not_fuelOut op args ty st
            · simp only [hp, Bool.false_eq_true, if_false]
              simp only [esize] at hb
              have hop1 := esize_pos op
              have hargsb : 3 * esizeList args + 1 + unvisitedWeight st ≤ n := by
                omega
              rcases hargs : visitList n args st with ⟨s1, o⟩
              have hw1 : unvisitedWeight s1 ≤ unvisitedWeight st := by
                have := (visit_stEv n).2.1 args st
                rw [hargs] at this
                exact unvisitedWeight_mono this
              cases op with
              | ctor tag cty =>
                  cases o with
                  | ok cargs => simp
                  | err k => simp
                  | fuelOut =>
                      have := ihL args st hargsb
                      rw [hargs] at this
                      simp at this
              | var xid xty =>
                  cases o with
                  | ok cargs =>
                      dsimp only
                      rcases hopv : visit n (.var xid xty) s1 with ⟨s2, o2⟩
                      cases o2 with
                      | ok cfn => simp
                      | err k => simp
                      | fuelOut =>
                          have hbop : 3 * esize (Expr.var xid xty) +
                              unvisitedWeight s1 ≤ n := by
                            simp only [esize]
                            omega
                          have := ihV (.var xid xty) s1 hbop
                          rw [hopv] at this
                          simp at this
                  | err k => simp
                  | fuelOut =>
                      have := ihL args st hargsb
                      rw [hargs] at this
                      simp at this
              | constant cv cty =>
                  cases o with
                  | ok cargs =>
                      dsimp only
                      rcases hopv : visit n (.constant cv cty) s1 with ⟨s2, o2⟩
                      cases o2 with
                      | ok cfn => simp
                      | err k => simp
                      | fuelOut =>
                          have hbop : 3 * esize (Expr.constant cv cty) +
                              unvisitedWeight s1 ≤ n := by
                            simp only [esize]
                            omega
                          have := ihV (.constant cv cty) s1 hbop
                          rw [hopv] at this
                          simp at this
                  | err k => simp
                  | fuelOut =>
                      have := ihL args st hargsb
                      rw [hargs] at this
                      simp at this
              | globalVar gid gty =>
                  cases o with
                  | ok cargs =>
                      dsimp only
                      rcases hopv : visit n (.globalVar gid gty) s1 with ⟨s2, o2⟩
                      cases o2 with
                      | ok cfn => simp
                      | err k => simp
                      | fuelOut =>
                          have hbop : 3 * esize (Expr.globalVar gid gty) +
                              unvisitedWeight s1 ≤ n := by
                            simp only [esize]
                            omega
                          have := ihV (.globalVar gid gty) s1 hbop
                          rw [hopv] at this
                          simp at this
                  | err k => simp
                  | fuelOut =>
                      have := ihL args st hargsb
                      rw [hargs] at this
                      simp at this
              | call op2 args2 cty =>
                  cases o with
                  | ok cargs =>
                      dsimp only
                      rcases hopv : visit n (.call op2 args2 cty) s1 with ⟨s2, o2⟩
                      cases o2 with
                      | ok cfn => simp
                      | err k => simp
                      | fuelOut =>
                          have hbop : 3 * esize (Expr.call op2 args2 cty) +
                              unvisitedWeight s1 ≤ n := by
                            omega
                          have := ihV (.call op2 args2 cty) s1 hbop
                          rw [hopv] at this
                          simp at this
                  | err k => simp
                  | fuelOut =>
                      have := ihL args st hargsb
                      rw [hargs] at this
                      simp at this
              | letE lv lvty lval lbody lty =>
                  cases o with
                  | ok cargs =>
                      dsimp only
                      rcases hopv : visit n (.letE lv lvty lval lbody lty) s1
                        with ⟨s2, o2⟩
                      cases o2 with
                      | ok cfn => simp
                      | err k => simp
                      | fuelOut =>
                          have hbop : 3 * esize (Expr.letE lv lvty lval lbody lty) +
                              unvisitedWeight s1 ≤ n := by
                            omega
                          have := ihV (.letE lv lvty lval lbody lty) s1 hbop
                          rw [hopv] at this
                          simp at this
                  | err k => simp
                  | fuelOut =>
                      have := ihL args st hargsb
                      rw [hargs] at this
                      simp at this
              | ifE ic it ifl cty =>
                  cases o with
                  | ok cargs =>
                      dsimp only
                      rcases hopv : visit n (.ifE ic it ifl cty) s1 with ⟨s2, o2⟩
                      cases o2 with
                      | ok cfn => simp
                      | err k => simp
                      | fuelOut =>
                          have hbop : 3 * esize (Expr.ifE ic it ifl cty) +
                              unvisitedWeight s1 ≤ n := by
                            omega
                          have := ihV (.ifE ic it ifl cty) s1 hbop
                          rw [hopv] at this
                          simp at this
                  | err k => simp
                  | fuelOut =>
                      have := ihL args st hargsb
                      rw [hargs] at this
                      simp at this
              | tupleE tfs cty =>
                  cases o with
                  | ok cargs =>
                      dsimp only
                      rcases hopv : visit n (.tupleE tfs cty) s1 with ⟨s2, o2⟩
                      cases o2 with
                      | ok cfn => simp
                      | err k => simp
                      | fuelOut =>
                          have hbop : 3 * esize (Expr.tupleE tfs cty) +
                              unvisitedWeight s1 ≤ n := by
                            omega
                          have := ihV (.tupleE tfs cty) s1 hbop
                          rw [hopv] at this
                          simp at this
                  | err k => simp
                  | fuelOut =>
                      have := ihL args st hargsb
                      rw [hargs] at this
                      simp at this
              | func fps fb frt fattrs ffty =>
                  cases o with
                  | ok cargs =>
                      dsimp only
                      rcases hopv : visit n (.func fps fb frt fattrs ffty) s1
                        with ⟨s2, o2⟩
                      cases o2 with
                      | ok cfn => simp
                      | err k => simp
                      | fuelOut =>
                          have hbop : 3 * esize (Expr.func fps fb frt fattrs ffty) +
                              unvisitedWeight s1 ≤ n := by
                            omega
                          have := ihV (.func fps fb frt fattrs ffty) s1 hbop
                          rw [hopv] at this
                          simp at this
                  | err k => simp
                  | fuelOut =>
                      have := ihL args st hargsb
                      rw [hargs] at this
                      simp at this
              | matchE md mcls mty =>
                  cases o with
                  | ok cargs =>
                      dsimp only
                      rcases hopv : visit n (.matchE md mcls mty) s1 with ⟨s2, o2⟩
                      cases o2 with
                      | ok cfn => simp
                      | err k => simp
                      | fuelOut =>
                          have hbop : 3 * esize (Expr.matchE md mcls mty) +
                              unvisitedWeight s1 ≤ n := by
                            omega
                          have := ihV (.matchE md mcls mty) s1 hbop
                          rw [hopv] at this
                          simp at this
                  | err k => simp
                  | fuelOut =>
                      have := ihL args st hargsb
                      rw [hargs] at this
                      simp at this
        | letE v vty value body ty =>
            simp only [visit]
            apply ihLet
            · intro _
              rw [unvisitedWeight_pushFrame]
              exact hb
            · intro hfalse
              simp [Expr.isLet] at hfalse
        | ifE c t f ty =>
            simp only [visit]
            simp only [esize] at hb
            have hc1 := esize_pos c
            have ht1 := esize_pos t
            have hf1 := esize_pos f
            rcases h1 : visit n c st with ⟨s1, o1⟩
            have hw1 : unvisitedWeight s1 ≤ unvisitedWeight st := by
              have := (visit_stEv n).1 c st
              rw [h1] at this
              exact unvisitedWeight_mono this
            cases o1 with
            | ok cc =>
                dsimp only
                rcases h2 : visit n t s1 with ⟨s2, o2⟩
                have hw2 : unvisitedWeight s2 ≤ unvisitedWeight s1 := by
                  have := (visit_stEv n).1 t s1
                  rw [h2] at this
                  exact unvisitedWeight_mono this
                cases o2 with
                | ok ct =>
                    dsimp only
                    rcases h3 : visit n f s2 with ⟨s3, o3⟩
                    cases o3 with
                    | ok cf => simp
                    | err k => simp
                    | fuelOut =>
                        have hbf : 3 * esize f + unvisitedWeight s2 ≤ n := by
                          omega
                        have := ihV f s2 hbf
                        rw [h3] at this
                        simp at this
                | err k => simp
                | fuelOut =>
                    have hbt : 3 * esize t + unvisitedWeight s1 ≤ n := by
                      omega
                    have := ihV t s1 hbt
                    rw [h2] at this
                    simp at this
            | err k => simp
            | fuelOut =>
                have hbc : 3 * esize c + unvisitedWeight st ≤ n := by
                  omega
                have := ihV c st hbc
                rw [h1] at this
                simp at this
        | tupleE fields ty =>
            simp only [visit]
            simp only [esize] at hb
            rcases h1 : visitList n fields st with ⟨s1, o1⟩
            cases o1 with
            | ok cfs => simp
            | err k => simp
            | fuelOut =>
                have hbf : 3 * esizeList fields + 1 + unvisitedWeight st ≤ n := by
                  omega
                have := ihL fields st hbf
                rw [h1] at this
                simp at this
        | func ps body retTy attrs fty =>
            simp only [visit]
            by_cases hp : is_primitive (.func ps body retTy attrs fty)
            · simp only [hp, if_true]
              have hnf := mk_primitive_op_not_fuelOut (.func ps body retTy attrs fty)
                (ps.map fun p => Expr.var p.1 p.2) retTy st
              split <;> simp_all
            · simp only [hp, Bool.false_eq_true, if_false]
              simp only [esize] at hb
              rcases h1 : visit n body st with ⟨s1, o1⟩
              cases o1 with
              | ok cb => simp
              | err k => simp
              | fuelOut =>
                  have hbb : 3 * esize body + unvisitedWeight st ≤ n := by
                    omega
                  have := ihV body st hbb
                  rw [h1] at this
                  simp at this
        | matchE d cls ty =>
            simp only [visit]
            simp only [esize] at hb
            have hd1 := esize_pos d
            rcases h1 : visit n d st with ⟨s1, o1⟩
            have hw1 : unvisitedWeight s1 ≤ unvisitedWeight st := by
              have := (visit_stEv n).1 d st
              rw [h1] at this
              exact unvisitedWeight_mono this
            cases o1 with
            | ok cd =>
                dsimp only
                rcases h2 : visitList n (cls.map Prod.snd) s1 with ⟨s2, o2⟩
                cases o2 with
                | ok crs => simp
                | err k => simp
                | fuelOut =>
                    have hbc : 3 * esizeList (cls.map Prod.snd) + 1 +
                        unvisitedWeight s1 ≤ n := by
                      rw [esizeList_map_snd]
                      omega
                    have := ihL (cls.map Prod.snd) s1 hbc
                    rw [h2] at this
                    simp at this
            | err k => simp
            | fuelOut =>
                have hbd : 3 * esize d + unvisitedWeight st ≤ n := by
                  omega
                have := ihV d st hbd
                rw [h1] at this
                simp at this
      · intro es st hb
        cases es with
        | nil => simp [visitList]
        | cons e rest =>
            simp only [visitList]
            simp only [esizeList] at hb
            have he1 := esize_pos e
            rcases h1 : visit n e st with ⟨s1, o1⟩
            have hw1 : unvisitedWeight s1 ≤ unvisitedWeight st := by
              have := (visit_stEv n).1 e st
              rw [h1] at this
              exact unvisitedWeight_mono this
            cases o1 with
            | ok c =>
                dsimp only
                rcases h2 : visitList n rest s1 with ⟨s2, o2⟩
                cases o2 with
                | ok cs => simp
                | err k => simp
                | fuelOut =>
                    have hbr : 3 * esizeList rest + 1 + unvisitedWeight s1 ≤ n := by
                      omega
                    have := ihL rest s1 hbr
                    rw [h2] at this
                    simp at this
            | err k => simp
            | fuelOut =>
                have hbe : 3 * esize e + unvisitedWeight st ≤ n := by
                  omega
                have := ihV e st hbe
                rw [h1] at this
                simp at this
      · intro e st hb1 hb2
        cases e with
        | letE v vty value body ty =>
            simp only [visitLet]
            have h1b := hb1 rfl
            simp only [esize] at h1b
            have hv1 := esize_pos value
            have hbo1 := esize_pos body
            rcases h1 : visit n value st with ⟨s1, o1⟩
            have hw1 : unvisitedWeight s1 ≤ unvisitedWeight st := by
              have := (visit_stEv n).1 value st
              rw [h1] at this
              exact unvisitedWeight_mono this
            cases o1 with
            | ok cv =>
                dsimp only
                apply ihLet
                · intro _
                  rw [unvisitedWeight_addBinding]
                  omega
                · intro _
                  rw [unvisitedWeight_addBinding]
                  omega
            | err k => simp
            | fuelOut =>
                have hbv : 3 * esize value + unvisitedWeight st ≤ n := by
                  omega
                have := ihV value st hbv
                rw [h1] at this
                simp at this
        | var x ty =>
            simp only [visitLet]
            have h2b := hb2 rfl
            rcases h1 : visit n (.var x ty) (popFrame st).2 with ⟨s1, o1⟩
            cases o1 with
            | ok cb => simp
            | err k => simp
            | fuelOut =>
                have hbv : 3 * esize (Expr.var x ty) +
                    unvisitedWeight (popFrame st).2 ≤ n := by
                  rw [unvisitedWeight_popFrame]
                  omega
                have := ihV (.var x ty) (popFrame st).2 hbv
                rw [h1] at this
                simp at this
        | constant c ty =>
            simp only [visitLet]
            have h2b := hb2 rfl
            rcases h1 : visit n (.constant c ty) (popFrame st).2 with ⟨s1, o1⟩
            cases o1 with
            | ok cb => simp
            | err k => simp
            | fuelOut =>
                have hbv : 3 * esize (Expr.constant c ty) +
                    unvisitedWeight (popFrame st).2 ≤ n := by
                  rw [unvisitedWeight_popFrame]
                  omega
                have := ihV (.constant c ty) (popFrame st).2 hbv
                rw [h1] at this
                simp at this
        | globalVar g ty =>
            simp only [visitLet]
            have h2b := hb2 rfl
            rcases h1 : visit n (.globalVar g ty) (popFrame st).2 with ⟨s1, o1⟩
            cases o1 with
            | ok cb => simp
            | err k => simp
            | fuelOut =>
                have hbv : 3 * esize (Expr.globalVar g ty) +
                    unvisitedWeight (popFrame st).2 ≤ n := by
                  rw [unvisitedWeight_popFrame]
                  omega
                have := ihV (.globalVar g ty) (popFrame st).2 hbv
                rw [h1] at this
                simp at this
        | call op args ty =>
            simp only [visitLet]
            have h2b := hb2 rfl
            rcases h1 : visit n (.call op args ty) (popFrame st).2 with ⟨s1, o1⟩
            cases o1 with
            | ok cb => simp
            | err k => simp
            | fuelOut =>
                have hbv : 3 * esize (Expr.call op args ty) +
                    unvisitedWeight (popFrame st).2 ≤ n := by
                  rw [unvisitedWeight_popFrame]
                  omega
                have := ihV (.call op args ty) (popFrame st).2 hbv
                rw [h1] at this
                simp at this
        | ifE c t f ty =>
            simp only [visitLet]
            have h2b := hb2 rfl
            rcases h1 : visit n (.ifE c t f ty) (popFrame st).2 with ⟨s1, o1⟩
            cases o1 with
            | ok cb => simp
            | err k => simp
            | fuelOut =>
                have hbv : 3 * esize (Expr.ifE c t f ty) +
                    unvisitedWeight (popFrame st).2 ≤ n := by
                  rw [unvisitedWeight_popFrame]
                  omega
                have := ihV (.ifE c t f ty) (popFrame st).2 hbv
                rw [h1] at this
                simp at this
        | tupleE fields ty =>
            simp only [visitLet]
            have h2b := hb2 rfl
            rcases h1 : visit n (.tupleE fields ty) (popFrame st).2 with ⟨s1, o1⟩
            cases o1 with
            | ok cb => simp
            | err k => simp
            | fuelOut =>
                have hbv : 3 * esize (Expr.tupleE fields ty) +
                    unvisitedWeight (popFrame st).2 ≤ n := by
                  rw [unvisitedWeight_popFrame]
                  omega
                have := ihV (.tupleE fields ty) (popFrame st).2 hbv
                rw [h1] at this
                simp at this
        | func ps body retTy attrs fty =>
            simp only [visitLet]
            have h2b := hb2 rfl
            rcases h1 : visit n (.func ps body retTy attrs fty) (popFrame st).2
              with ⟨s1, o1⟩
            cases o1 with
            | ok cb => simp
            | err k => simp
            | fuelOut =>
                have hbv : 3 * esize (Expr.func ps body retTy attrs fty) +
                    unvisitedWeight (popFrame st).2 ≤ n := by
                  rw [unvisitedWeight_popFrame]
                  omega
                have := ihV (.func ps body retTy attrs fty) (popFrame st).2 hbv
                rw [h1] at this
                simp at this
        | ctor tag ty =>
            simp only [visitLet]
            have h2b := hb2 rfl
            rcases h1 : visit n (.ctor tag ty) (popFrame st).2 with ⟨s1, o1⟩
            cases o1 with
            | ok cb => simp
            | err k => simp
            | fuelOut =>
                have hbv : 3 * esize (Expr.ctor tag ty) +
                    unvisitedWeight (popFrame st).2 ≤ n := by
                  rw [unvisitedWeight_popFrame]
                  omega
                have := ihV (.ctor tag ty) (popFrame st).2 hbv
                rw [h1] at this
                simp at this
        | matchE d cls ty =>
            simp only [visitLet]
            have h2b := hb2 rfl
            rcases h1 : visit n (.matchE d cls ty) (popFrame st).2 with ⟨s1, o1⟩
            cases o1 with
            | ok cb => simp
            | err k => simp
            | fuelOut =>
                have hbv : 3 * esize (Expr.matchE d cls ty) +
                    unvisitedWeight (popFrame st).2 ≤ n := by
                  rw [unvisitedWeight_popFrame]
                  omega
                have := ihV (.matchE d cls ty) (popFrame st).2 hbv
                rw [h1] at this
                simp at this

/-! Characterization of let-chain flattening. -/

theorem popFrame_fst (st : CState) : (popFrame st).1 = st.bindings.headD [] := by
  unfold popFrame
  rcases st.bindings with _ | ⟨f, rest⟩ <;> rfl

theorem addBinding_headD (st : CState) (b : (Nat × RType) × CPPExpr) :
    (addBinding st b).bindings.headD [] = st.bindings.headD [] ++ [b] := by
  unfold addBinding
  rcases st.bindings with _ | ⟨f, rest⟩ <;> rfl

theorem visitLet_nonlet (n : Nat) (e : Expr) (st : CState)
    (h : e.isLet = false) :
    visitLet (n + 1) e st =
      (match visit n e (popFrame st).2 with
       | (st2, .ok cb) => (st2, .ok (.decl (popFrame st).1 cb))
       | (st2, .err k) => (st2, .err k)
       | (st2, .fuelOut) => (st2, .fuelOut)) := by
  cases e <;> first
    | rfl
    | (simp [Expr.isLet] at h)

/-- A successful visitLet run over a chain of items produces a single
Declaration block: the pushed frame contents extended by one lowered
binding per chain item, in order, with each lowered value produced by a
visit of the matching source value, and the trailing expression produced
by a visit of the non-let final body. -/
theorem visitLet_chain :
    ∀ (items : List ((Nat × RType) × Expr)) (e fin : Expr),
      IsChain e items fin →
      ∀ n st st2 r, visitLet n e st = (st2, .ok r) →
      ∃ (pairs : List (((Nat × RType) × CPPExpr) × Expr)) (b : CPPExpr),
        r = .decl (st.bindings.headD [] ++ pairs.map Prod.fst) b ∧
        pairs.map (fun q => q.1.1) = items.map Prod.fst ∧
        pairs.map Prod.snd = items.map Prod.snd ∧
        (∀ q ∈ pairs, ∃ m s s2, visit m q.2 s = (s2, .ok q.1.2)) ∧
        ∃ m s s2, visit m fin s = (s2, .ok b) := by
  intro items e fin hchain
  induction hchain with
  | nil e0 hnl =>
      intro n st st2 r h
      cases n with
      | zero => simp [visitLet] at h
      | succ n =>
          rw [visitLet_nonlet n e0 st hnl] at h
          rcases h1 : visit n e0 (popFrame st).2 with ⟨s1, o1⟩
          rw [h1] at h
          cases o1 with
          | ok cb =>
              dsimp only at h
              simp only [Prod.mk.injEq, Out.ok.injEq] at h
              obtain ⟨hs, hok⟩ := h
              refine ⟨[], cb, ?_, rfl, rfl, ?_, n, (popFrame st).2, s1, ?_⟩
              · rw [← hok, popFrame_fst]
                simp
              · intro q hq; simp at hq
              · rw [h1, hs]
          | err k => simp at h
          | fuelOut => simp at h
  | cons v vty value body ty items' fin' hch ih =>
      intro n st st2 r h
      cases n with
      | zero => simp [visitLet] at h
      | succ n =>
          simp only [visitLet] at h
          rcases h1 : visit n value st with ⟨s1, o1⟩
          rw [h1] at h
          cases o1 with
          | ok cv =>
              dsimp only at h
              obtain ⟨pairs', b, hr, hm1, hm2, hvals, hfin⟩ :=
                ih n (addBinding s1 ((v, vty), cv)) st2 r h
              refine ⟨(((v, vty), cv), value) :: pairs', b, ?_, ?_, ?_, ?_, hfin⟩
              · rw [hr, addBinding_headD,
                  (visit_bindings n).1 value st s1 cv h1]
                simp
              · simp [hm1]
              · simp [hm2]
              · intro q hq
                rcases List.mem_cons.mp hq with rfl | hq2
                · exact ⟨n, st, s1, h1⟩
                · exact hvals q hq2
          | err k => simp at h
          | fuelOut => simp at h

/-! Operator-cache session facts. -/

theorem mk_state_cached (f : Expr) (args : List Expr) (outTy : RType)
    (st : CState) (hcc : (callingConv f args).isSome)
    (hmem : structural_hash f ∈ st.registered) :
    (mk_primitive_op f args outTy st).1 = st := by
  unfold mk_primitive_op
  rcases hc : callingConv f args with _ | ⟨tup, np⟩
  · simp [hc] at hcc
  · simp [hmem]

theorem mk_state_fresh (f : Expr) (args : List Expr) (outTy : RType)
    (st : CState) (hcc : (callingConv f args).isSome)
    (hmem : structural_hash f ∉ st.registered)
    (hjit : st.jitOk (structural_hash f) = true) :
    (mk_primitive_op f args outTy st).1 =
      { st with jitCount := st.jitCount + 1,
                registered := structural_hash f :: st.registered } := by
  unfold mk_primitive_op
  rcases hc : callingConv f args with _ | ⟨tup, np⟩
  · simp [hc] at hcc
  · simp [hmem, hjit]

/-- One compilation session processing a list of primitive lowering jobs:
the jit counter advances by exactly the number of distinct fingerprints
not already registered, the cache's registered names accumulate exactly
the job fingerprints, and a duplicate-free cache stays duplicate-free. -/
theorem runPrims_session :
    ∀ (jobs : List (Expr × List Expr × RType)) (st : CState),
      (∀ j ∈ jobs, (callingConv j.1 j.2.1).isSome) →
      (∀ h, st.jitOk h = true) →
      (runPrims jobs st).jitCount = st.jitCount +
        ((jobs.map fun j => structural_hash j.1).toFinset \
          st.registered.toFinset).card ∧
      (runPrims jobs st).registered.toFinset =
        (jobs.map fun j => structural_hash j.1).toFinset ∪
          st.registered.toFinset ∧
      (st.registered.Nodup → (runPrims jobs st).registered.Nodup) := by
  intro jobs
  induction jobs with
  | nil =>
      intro st _ _
      refine ⟨by simp [runPrims], by simp [runPrims], fun h => by simpa [runPrims]⟩
  | cons j rest ih =>
      obtain ⟨f, args, ty⟩ := j
      intro st hshape hjit
      have hccj : (callingConv f args).isSome := hshape (f, args, ty) (by simp)
      have hrest : ∀ j2 ∈ rest, (callingConv j2.1 j2.2.1).isSome := by
        intro j2 hj2; exact hshape j2 (List.mem_cons_of_mem _ hj2)
      by_cases hmem : structural_hash f ∈ st.registered
      · have hstep : runPrims ((f, args, ty) :: rest) st = runPrims rest st := by
          simp only [runPrims]
          rw [mk_state_cached f args ty st hccj hmem]
        obtain ⟨hc, hr, hn⟩ := ih st hrest hjit
        rw [hstep]
        refine ⟨?_, ?_, hn⟩
        · rw [hc]
          congr 1
          congr 1
          rw [List.map_cons, List.toFinset_cons,
            Finset.insert_sdiff_of_mem _ (List.mem_toFinset.mpr hmem)]
        · rw [hr, List.map_cons, List.toFinset_cons]
          rw [Finset.insert_union,
            Finset.insert_eq_self.mpr
              (Finset.mem_union_right _ (List.mem_toFinset.mpr hmem))]
      · have hstep : runPrims ((f, args, ty) :: rest) st =
            runPrims rest { st with jitCount := st.jitCount + 1,
                                    registered := structural_hash f :: st.registered } := by
          simp only [runPrims]
          rw [mk_state_fresh f args ty st hccj hmem (hjit _)]
        obtain ⟨hc, hr, hn⟩ := ih
          { st with jitCount := st.jitCount + 1,
                    registered := structural_hash f :: st.registered }
          hrest hjit
        rw [hstep]
        refine ⟨?_, ?_, ?_⟩
        · rw [hc]
          simp only [List.map_cons, List.toFinset_cons]
          rw [Finset.sdiff_insert, Finset.insert_sdiff_of_not_mem _
            (by simpa using hmem)]
          by_cases hfx : structural_hash f ∈
              (rest.map fun j => structural_hash j.1).toFinset \ st.registered.toFinset
          · rw [Finset.insert_eq_self.mpr hfx, Finset.card_erase_of_mem hfx]
            have hpos : 0 <
                ((rest.map fun j => structural_hash j.1).toFinset \
                  st.registered.toFinset).card :=
              Finset.card_pos.mpr ⟨_, hfx⟩
            omega
          · rw [Finset.erase_eq_of_not_mem hfx, Finset.card_insert_of_not_mem hfx]
            omega
        · rw [hr]
          simp only [List.map_cons, List.toFinset_cons]
          rw [Finset.union_insert, Finset.insert_union]
        · intro hnd
          exact hn (by simp [hmem, hnd])

/-! Wrapper marshalling helpers. -/

theorem convertList_native : ∀ (l out : List HostVal),
    convertList l = some out → ∀ x ∈ out, isNativeTensor x = true := by
  intro l
  induction l with
  | nil =>
      intro out h x hx
      simp [convertList] at h
      subst h
      simp at hx
  | cons a rest ih =>
      intro out h x hx
      simp only [convertList] at h
      rcases ha : convert a with _ | c
      · rw [ha] at h; simp at h
      · rw [ha] at h
        rcases hr : convertList rest with _ | cs
        · rw [hr] at h; simp at h
        · rw [hr] at h
          simp only [Option.some.injEq] at h
          subst h
          rcases List.mem_cons.mp hx with rfl | hx2
          · cases a <;> simp [convert] at ha <;> rw [← ha] <;> rfl
          · exact ih cs hr x hx2

theorem convertList_isSome : ∀ l : List HostVal,
    (∀ a ∈ l, (convert a).isSome) → (convertList l).isSome := by
  intro l
  induction l with
  | nil => intro _; simp [convertList]
  | cons a rest ih =>
      intro h
      have ha := h a (by simp)
      rcases hc : convert a with _ | c
      · rw [hc] at ha; simp at ha
      · have hr := ih fun x hx => h x (List.mem_cons_of_mem _ hx)
        rcases hcr : convertList rest with _ | cs
        · rw [hcr] at hr; simp at hr
        · simp [convertList, hc, hcr]

theorem convertList_none_of_mem : ∀ (l : List HostVal) (a : HostVal),
    a ∈ l → convert a = none → convertList l = none := by
  intro l
  induction l with
  | nil => intro a ha; simp at ha
  | cons b rest ih =>
      intro a ha hna
      rcases List.mem_cons.mp ha with rfl | ha2
      · simp [convertList, hna]
      · simp only [convertList]
        rcases hb : convert b with _ | c
        · rfl
        · rw [ih a ha2 hna]

/-- A duplicate-free list holds exactly one copy of each member. -/
theorem filter_eq_length_one {α : Type} [DecidableEq α] :
    ∀ (l : List α), l.Nodup → ∀ a ∈ l, (l.filter fun x => x = a).length = 1 := by
  intro l
  induction l with
  | nil => intro _ a ha; simp at ha
  | cons b rest ih =>
      intro hnd a ha
      have hnd2 := List.nodup_cons.mp hnd
      rcases List.mem_cons.mp ha with rfl | ha2
      · have hrest : rest.filter (fun x => x = a) = [] := by
          rw [List.filter_eq_nil_iff]
          intro x hx
          simp only [decide_eq_true_eq]
          intro hxa
          exact hnd2.1 (hxa ▸ hx)
        simp [List.filter_cons, hrest]
      · have hba : ¬ (b = a) := by
          intro hba
          exact hnd2.1 (hba ▸ ha2)
        simp [List.filter_cons, hba, ih hnd2.2 a ha2]

/-! The ten claims. -/

/-- C1: for every pair of structurally identical primitive operator
expressions (same tree shape, possibly different variable names) lowered
in the same compilation session, exactly one kernel is registered in the
Operator Cache, and the number of JIT-compile invocations equals the
number of distinct structural fingerprints, not the number of call
sites: repeated lowering of a structurally identical primitive observes
the already-registered kernel and never recompiles it.  Part one:
injective renaming preserves the fingerprint; part two: over any job
list in a fresh session, the jit counter equals the number of distinct
fingerprints, the cache is duplicate-free, and each job's fingerprint is
registered exactly once. -/
theorem compile_once_idempotent_cache :
    (∀ r : Nat → Nat, Function.Injective r → ∀ f, wellScoped [] f = true →
      structural_hash (rename r f) = structural_hash f) ∧
    (∀ (jobs : List (Expr × List Expr × RType)) (st : CState),
      (∀ j ∈ jobs, (callingConv j.1 j.2.1).isSome) →
      (∀ h, st.jitOk h = true) →
      st.registered = [] →
      (runPrims jobs st).jitCount = st.jitCount +
        ((jobs.map fun j => structural_hash j.1).toFinset).card ∧
      (runPrims jobs st).registered.Nodup ∧
      (∀ j ∈ jobs,
        ((runPrims jobs st).registered.filter
          (fun x => x = structural_hash j.1)).length = 1)) := by
  constructor
  · intro r hinj f hws
    exact structural_hash_rename r hinj f hws
  · intro jobs st hsh hjit hreg
    obtain ⟨hc, hr, hn⟩ := runPrims_session jobs st hsh hjit
    rw [hreg] at hc hr hn
    simp only [List.toFinset_nil, Finset.sdiff_empty, Finset.union_empty] at hc hr
    refine ⟨hc, hn (by simp), ?_⟩
    intro j hj
    apply filter_eq_length_one _ (hn (by simp))
    rw [← List.mem_toFinset, hr]
    exact List.mem_toFinset.mpr (List.mem_map.mpr ⟨j, hj, rfl⟩)

/-- Witness for C1: the renamed primitive pF2 fingerprints identically to
pF1; lowering both in a fresh session jit-compiles once and registers
the shared fingerprint exactly once. -/
theorem compile_once_idempotent_cache_witness :
    structural_hash pF2 = structural_hash pF1 ∧
    (runPrims [(pF1, [aX], tE), (pF2, [aX], tE)] stW).jitCount = 1 ∧
    ((runPrims [(pF1, [aX], tE), (pF2, [aX], tE)] stW).registered.filter
      (fun x => x = structural_hash pF1)).length = 1 := by
  obtain ⟨h1, h2⟩ := compile_once_idempotent_cache
  have hren : structural_hash pF2 = structural_hash pF1 :=
    h1 (fun x => x + 7) (fun a b hab => by dsimp at hab; omega) pF1 (by decide)
  have hsess := h2 [(pF1, [aX], tE), (pF2, [aX], tE)] stW (by decide)
    (fun h => rfl) rfl
  refine ⟨hren, ?_, ?_⟩
  · rw [hsess.1]
    decide
  · exact hsess.2.2 (pF1, [aX], tE) (by simp)

/-- C4: a primitive call with exactly one argument of tuple type with K
fields lowers to a PackedCall with the spread flag set and arity K + 1;
a primitive call whose arguments are all tensor-typed lowers to a
PackedCall with the spread flag unset and arity the operator
definition's parameter count plus one; any other argument-type shape
fails with the fatal TypeShapeError before touching the cache. -/
theorem primitive_calling_convention :
    (∀ f a fields outTy st, a.checkedType = .tupleT fields →
      (structural_hash f ∈ st.registered ∨
        st.jitOk (structural_hash f) = true) →
      (mk_primitive_op f [a] outTy st).2 =
        .ok (.packedCall (structural_hash f) (fields.length + 1) [a] outTy
          true)) ∧
    (∀ f args outTy st, (∀ a ∈ args, isTensorTy a.checkedType = true) →
      (structural_hash f ∈ st.registered ∨
        st.jitOk (structural_hash f) = true) →
      (mk_primitive_op f args outTy st).2 =
        .ok (.packedCall (structural_hash f) (f.paramsOf.length + 1) args
          outTy false)) ∧
    (∀ f args outTy st,
      (∀ a fields, args = [a] → a.checkedType ≠ .tupleT fields) →
      (∃ a, a ∈ args ∧ isTensorTy a.checkedType = false) →
      mk_primitive_op f args outTy st = (st, .err .typeShape)) := by
  refine ⟨?_, ?_, ?_⟩
  · intro f a fields outTy st hty hjit
    have hcc : callingConv f [a] = some (true, fields.length) := by
      simp [callingConv, hty]
    unfold mk_primitive_op
    rw [hcc]
    by_cases hmem : structural_hash f ∈ st.registered
    · simp [hmem]
    · rcases hjit with hjit | hjit
      · exact absurd hjit hmem
      · simp [hmem, hjit]
  · intro f args outTy st hten hjit
    have hall : (args.all fun x => isTensorTy x.checkedType) = true := by
      rw [List.all_eq_true]
      exact hten
    have hcc : callingConv f args = some (false, f.paramsOf.length) := by
      rcases args with _ | ⟨a, rest⟩
      · simp [callingConv]
      · rcases rest with _ | ⟨b, rest2⟩
        · have ha := hten a (by simp)
          rcases hct : a.checkedType with ⟨sh, dt⟩ | flds | ⟨ats, rt⟩ | nm
          · simp [callingConv, hct, hall]
          · rw [hct] at ha; simp [isTensorTy] at ha
          · simp [callingConv, hct, hall]
          · simp [callingConv, hct, hall]
        · simp [callingConv, hall]
    unfold mk_primitive_op
    rw [hcc]
    by_cases hmem : structural_hash f ∈ st.registered
    · simp [hmem]
    · rcases hjit with hjit | hjit
      · exact absurd hjit hmem
      · simp [hmem, hjit]
  · intro f args outTy st hnotup hbad
    obtain ⟨a0, ha0, hbad0⟩ := hbad
    have hall : (args.all fun x => isTensorTy x.checkedType) = false := by
      rw [List.all_eq_false]
      exact ⟨a0, ha0, by simp [hbad0]⟩
    have hcc : callingConv f args = none := by
      rcases args with _ | ⟨a, rest⟩
      · simp at ha0
      · rcases rest with _ | ⟨b, rest2⟩
        · have haa : a0 = a := by simpa using ha0
          subst haa
          rcases hct : a0.checkedType with ⟨sh, dt⟩ | flds | ⟨ats, rt⟩ | nm
          · rw [hct] at hbad0; simp [isTensorTy] at hbad0
          · exact absurd hct (hnotup a0 flds rfl)
          · simp [callingConv, hct, hall]
          · simp [callingConv, hct, hall]
        · simp [callingConv, hall]
    unfold mk_primitive_op
    rw [hcc]

/-- Witness for C4 at concrete inputs: a single tuple-typed argument of
two fields gives a spread PackedCall of arity 3; two tensor arguments
give a flat PackedCall of arity 2 (pF1 has one parameter); a non-tensor,
non-tuple argument raises TypeShapeError. -/
theorem primitive_calling_convention_witness :
    (mk_primitive_op pF1 [.var 3 (.tupleT [tE, tE])] tE stW).2 =
      .ok (.packedCall (structural_hash pF1) 3 [.var 3 (.tupleT [tE, tE])]
        tE true) ∧
    (mk_primitive_op pF1 [aX, aX] tE stW).2 =
      .ok (.packedCall (structural_hash pF1) 2 [aX, aX] tE false) ∧
    mk_primitive_op pF1 [.var 3 (.funcT [] tE)] tE stW =
      (stW, .err .typeShape) := by
  obtain ⟨h1, h2, h3⟩ := primitive_calling_convention
  refine ⟨?_, ?_, ?_⟩
  · exact h1 pF1 (.var 3 (.tupleT [tE, tE])) [tE, tE] tE stW rfl (Or.inr rfl)
  · exact h2 pF1 [aX, aX] tE stW (by decide) (Or.inr rfl)
  · exact h3 pF1 [.var 3 (.funcT [] tE)] tE stW
      (by intro a fields ha; cases ha; simp [Expr.checkedType])
      ⟨.var 3 (.funcT [] tE), by simp, rfl⟩

/-- C6: the entry-point wrapper invokes the native packed symbol with all
captured parameter values followed by the caller-supplied arguments, in
that fixed order, with every value in both groups converted to the
native tensor representation before the call. -/
theorem wrapper_argument_order (params args ps1 as1 : List HostVal)
    (hp : convertList params = some ps1) (ha : convertList args = some as1) :
    wrap params args = some (ps1 ++ as1) ∧
    (∀ x ∈ ps1 ++ as1, isNativeTensor x = true) ∧
    (∀ st, invokeEntry st params args = (some (ps1 ++ as1), st)) := by
  refine ⟨?_, ?_, ?_⟩
  · unfold wrap
    rw [hp, ha]
  · intro x hx
    rcases List.mem_append.mp hx with hx | hx
    · exact convertList_native params ps1 hp x hx
    · exact convertList_native args as1 ha x hx
  · intro st
    unfold invokeEntry wrap
    rw [hp, ha]

/-- Witness for C6: one captured parameter and two caller arguments are
forwarded converted, parameters first, in order. -/
theorem wrapper_argument_order_witness :
    wrap [.ndarray 7] [.tensorValue 1, .ndarray 2] =
      some [.tensorValue 7, .tensorValue 1, .tensorValue 2] ∧
    (∀ x ∈ ([.tensorValue 7, .tensorValue 1, .tensorValue 2] : List HostVal),
      isNativeTensor x = true) := by
  have h := wrapper_argument_order [.ndarray 7] [.tensorValue 1, .ndarray 2]
    [.tensorValue 7] [.tensorValue 1, .tensorValue 2] rfl rfl
  exact ⟨h.1, h.2.1⟩

/-- C7 counterexample: the claim says the wrapper validates that the
number of supplied arguments equals the number of declared inputs before
invoking the native symbol.  The wrapper performs no such validation:
with the same (empty) captured-parameter list, calls with zero, one and
two arguments are all converted and forwarded, yet at most one of those
counts can match the compiled function's declared input count. -/
theorem wrapper_no_arity_validation :
    wrap [] [] = some [] ∧
    wrap [] [.ndarray 0] = some [.tensorValue 0] ∧
    wrap [] [.ndarray 0, .ndarray 1] =
      some [.tensorValue 0, .tensorValue 1] :=
  ⟨rfl, rfl, rfl⟩

/-- C7 amended: the wrapper performs no argument-count validation; any
number of convertible arguments is converted and forwarded to the native
symbol (an arity mismatch surfaces only inside the native call, not in
the wrapper). -/
theorem wrapper_forwards_any_arity (params args : List HostVal)
    (hp : ∀ a ∈ params, (convert a).isSome)
    (ha : ∀ a ∈ args, (convert a).isSome) :
    (wrap params args).isSome := by
  have h1 := convertList_isSome params hp
  have h2 := convertList_isSome args ha
  rcases hcp : convertList params with _ | ps
  · rw [hcp] at h1; simp at h1
  · rcases hca : convertList args with _ | as1
    · rw [hca] at h2; simp at h2
    · simp [wrap, hcp, hca]

/-- Witness for C7 amended: three calls of different arities all
succeed. -/
theorem wrapper_forwards_any_arity_witness :
    (wrap [] []).isSome ∧ (wrap [] [.ndarray 0]).isSome ∧
    (wrap [.tensorValue 5] [.ndarray 0, .ndarray 1]).isSome := by
  refine ⟨?_, ?_, ?_⟩
  · exact wrapper_forwards_any_arity [] [] (by intro a ha; simp at ha)
      (by intro a ha; simp at ha)
  · exact wrapper_forwards_any_arity [] [.ndarray 0]
      (by intro a ha; simp at ha)
      (by intro a ha; simp at ha; subst ha; rfl)
  · exact wrapper_forwards_any_arity [.tensorValue 5] [.ndarray 0, .ndarray 1]
      (by intro a ha; simp at ha; subst ha; rfl)
      (by intro a ha; simp at ha; rcases ha with rfl | rfl <;> rfl)

/-- C8: an entry-point argument that is neither a native tensor handle
nor a convertible host tensor value makes that invocation fail (convert
raises exactly on such values, and the whole call returns no result),
and the failure leaves the compiler session state unchanged. -/
theorem marshal_error_isolated :
    (∀ a, convert a = none ↔ ∃ t, a = .other t) ∧
    (∀ params args a, a ∈ params ++ args → convert a = none →
      wrap params args = none) ∧
    (∀ st params args, (invokeEntry st params args).2 = st) := by
  refine ⟨?_, ?_, ?_⟩
  · intro a
    cases a with
    | ndarray d => simp [convert]
    | tensorValue d => simp [convert]
    | other t => simp [convert]
  · intro params args a hmem hna
    rcases List.mem_append.mp hmem with hmem | hmem
    · unfold wrap
      rw [convertList_none_of_mem params a hmem hna]
    · unfold wrap
      rcases hcp : convertList params with _ | ps
      · rfl
      · rw [convertList_none_of_mem args a hmem hna]
  · intro st params args
    rfl

/-- Witness for C8: a raw value fails conversion, makes the whole call
fail, and leaves a concrete session state untouched. -/
theorem marshal_error_isolated_witness :
    convert (.other 3) = none ∧
    wrap [.ndarray 1] [.tensorValue 2, .other 3] = none ∧
    (invokeEntry stW [.ndarray 1] [.tensorValue 2, .other 3]).2 = stW := by
  obtain ⟨h1, h2, h3⟩ := marshal_error_isolated
  refine ⟨(h1 (.other 3)).mpr ⟨3, rfl⟩, ?_, h3 stW _ _⟩
  exact h2 [.ndarray 1] [.tensorValue 2, .other 3] (.other 3) (by simp)
    ((h1 (.other 3)).mpr ⟨3, rfl⟩)

/-- C9: the Lowering Visitor is the identity on leaf references: a
Variable or Constant node is returned unchanged (embedded as the same
relay node) with the state untouched, and a GlobalReference always
lowers to the reference itself — resolution of the global's body is only
a side effect on the Global definition map, never a substitution at the
use site. -/
theorem leaf_passthrough :
    (∀ n x ty st,
      visit (n + 1) (.var x ty) st = (st, .ok (.relayExpr (.var x ty)))) ∧
    (∀ n c ty st, visit (n + 1) (.constant c ty) st =
      (st, .ok (.relayExpr (.constant c ty)))) ∧
    (∀ n g ty st r, (visit n (.globalVar g ty) st).2 = .ok r →
      r = .relayExpr (.globalVar g ty)) := by
  refine ⟨fun n x ty st => rfl, fun n c ty st => rfl, ?_⟩
  intro n g ty st r h
  cases n with
  | zero => simp [visit] at h
  | succ n =>
      simp only [visit] at h
      by_cases hg : (alookup st.gvMap g).isSome
      · simp only [hg, if_true] at h
        simpa using h.symm
      · simp only [hg, Bool.false_eq_true, if_false] at h
        rcases hm : alookup
            ({ st with gvMap := ainsert st.gvMap g .marker,
                       visitLog := st.visitLog ++ [g] } : CState).mod g
          with _ | d
        · rw [hm] at h; simp at h
        · rw [hm] at h
          dsimp only at h
          rcases hv : visit n d { st with gvMap := ainsert st.gvMap g .marker,
                                          visitLog := st.visitLog ++ [g] }
            with ⟨s2, o⟩
          rw [hv] at h
          cases o with
          | ok cd => dsimp only at h; simpa using h.symm
          | err k => simp at h
          | fuelOut => simp at h

/-- Witness for C9: concrete leaf visits, and a concrete global lookup
returning the reference itself. -/
theorem leaf_passthrough_witness :
    visit 4 (.var 2 tE) stW = (stW, .ok (.relayExpr (.var 2 tE))) ∧
    visit 4 (.constant 9 tE) stW = (stW, .ok (.relayExpr (.constant 9 tE))) ∧
    (CPPExpr.relayExpr (.globalVar 0 (.funcT [tE] tE))) =
      .relayExpr (.globalVar 0 (.funcT [tE] tE)) := by
  obtain ⟨h1, h2, h3⟩ := leaf_passthrough
  refine ⟨h1 3 2 tE stW, h2 3 9 tE stW, ?_⟩
  exact h3 9 0 (.funcT [tE] tE) stRec
    (.relayExpr (.globalVar 0 (.funcT [tE] tE))) rfl

/-- C2: lowering a self-recursive (or mutually recursive) global
definition completes without infinite recursion (given fuel beyond the
explicit depth bound, so the unbounded Python recursion terminates), the
session stays well-formed — in particular the visit log stays
duplicate-free, so every global identifier is visited at most once per
session — and on success the Global definition map holds exactly one
entry for the identifier, promoted to its final lowered value.  The last
part shows how recursion is broken: a reference to a global whose map
entry is present (the provisional marker included) returns immediately
without re-visiting. -/
theorem recursive_global_resolution (n g : Nat) (ty : RType) (st : CState)
    (hfuel : 3 + unvisitedWeight st ≤ n)
    (hwf : WfSt st) (hfresh : alookup st.gvMap g = none) :
    (visit n (.globalVar g ty) st).2 ≠ .fuelOut ∧
    WfSt (visit n (.globalVar g ty) st).1 ∧
    (∀ c, (visit n (.globalVar g ty) st).2 = .ok c →
      (∃ d, alookup (visit n (.globalVar g ty) st).1.gvMap g =
        some (.done d)) ∧
      ((keysOf (visit n (.globalVar g ty) st).1.gvMap).filter
        (fun x => x = g)).length = 1) ∧
    (∀ (st2 : CState) (m : Nat), (alookup st2.gvMap g).isSome →
      visit (m + 1) (.globalVar g ty) st2 =
        (st2, .ok (.relayExpr (.globalVar g ty)))) := by
  have hwfF := ((visit_stEv n).1 (.globalVar g ty) st).wf_pres hwf
  refine ⟨?_, hwfF, ?_, ?_⟩
  · apply (visit_fuel n).1
    simp only [esize]
    omega
  · intro c hok
    cases n with
    | zero => simp [visit] at hok
    | succ n =>
        rcases hq : visit (n + 1) (.globalVar g ty) st with ⟨stF, oF⟩
        rw [hq] at hwfF
        rw [hq] at hok
        have hq2 := hq
        simp only [visit] at hq2
        have hg : (alookup st.gvMap g).isSome = false := by
          rw [hfresh]; rfl
        rw [hg] at hq2
        simp only [Bool.false_eq_true, if_false] at hq2
        rcases hm : alookup st.mod g with _ | d
        · rw [hm] at hq2
          cases hq2
          simp at hok
        · rw [hm] at hq2
          dsimp only at hq2
          rcases hv : visit n d { st with gvMap := ainsert st.gvMap g .marker,
                                          visitLog := st.visitLog ++ [g] }
            with ⟨s2, o⟩
          rw [hv] at hq2
          cases o with
          | ok cd =>
              dsimp only at hq2
              cases hq2
              refine ⟨⟨cd, ?_⟩, ?_⟩
              · exact alookup_ainsert_self _ _ _
              · apply filter_eq_length_one _ hwfF.keysNodup
                have hsm : (alookup (ainsert s2.gvMap g (.done cd)) g).isSome := by
                  rw [alookup_ainsert_self]; rfl
                show g ∈ keysOf (ainsert s2.gvMap g (.done cd))
                by_contra hc
                rw [(alookup_eq_none_iff _ _).mpr hc] at hsm
                simp at hsm
          | err k =>
              cases hq2
              simp at hok
          | fuelOut =>
              cases hq2
              simp at hok
  · intro st2 m hsome
    simp [visit, hsome]

/-- Witness for C2 at the concrete self-recursive module stRec (global 0
calls itself): lowering completes, the map holds exactly one entry for
global 0, promoted to done, and the visit log shows a single visit. -/
theorem recursive_global_resolution_witness :
    (visit 20 (.globalVar 0 (.funcT [tE] tE)) stRec).2 ≠ .fuelOut ∧
    (∃ d, alookup (visit 20 (.globalVar 0 (.funcT [tE] tE)) stRec).1.gvMap 0 =
      some (.done d)) ∧
    ((keysOf (visit 20 (.globalVar 0 (.funcT [tE] tE)) stRec).1.gvMap).filter
      (fun x => x = 0)).length = 1 ∧
    (visit 20 (.globalVar 0 (.funcT [tE] tE)) stRec).1.visitLog = [0] := by
  have h := recursive_global_resolution 20 0 (.funcT [tE] tE) stRec
    (by decide)
    ⟨List.nodup_nil, fun g hg => by simp [stRec] at hg, List.nodup_nil⟩
    rfl
  obtain ⟨h1, h2, h3, h4⟩ := h
  have hok := h3 (.relayExpr (.globalVar 0 (.funcT [tE] tE))) rfl
  exact ⟨h1, hok.1, hok.2, rfl⟩

/-- C3: lowering a chain of nested sequential let-bindings whose final
body is a non-let expression produces a single Declaration block whose
ordered binding list has exactly one entry per chain item, pairing the
i-th bound variable with the lowered form of the i-th bound value with
order preserved and none dropped, and whose trailing expression is the
lowered non-let body. -/
theorem let_chain_flattening (n : Nat) (v : Nat) (vty : RType)
    (value body : Expr) (ty : RType)
    (items : List ((Nat × RType) × Expr)) (fin : Expr)
    (st st2 : CState) (r : CPPExpr)
    (hch : IsChain (.letE v vty value body ty) items fin)
    (hok : visit n (.letE v vty value body ty) st = (st2, .ok r)) :
    ∃ (pairs : List (((Nat × RType) × CPPExpr) × Expr)) (b : CPPExpr),
      r = .decl (pairs.map Prod.fst) b ∧
      pairs.length = items.length ∧
      pairs.map (fun q => q.1.1) = items.map Prod.fst ∧
      pairs.map Prod.snd = items.map Prod.snd ∧
      (∀ q ∈ pairs, ∃ m s s2, visit m q.2 s = (s2, .ok q.1.2)) ∧
      (∃ m s s2, visit m fin s = (s2, .ok b)) := by
  cases n with
  | zero => simp [visit] at hok
  | succ n =>
      simp only [visit] at hok
      obtain ⟨pairs, b, hr, hm1, hm2, hvals, hfin⟩ :=
        visitLet_chain items _ fin hch n (pushFrame st) st2 r hok
      refine ⟨pairs, b, ?_, ?_, hm1, hm2, hvals, hfin⟩
      · rw [hr]
        simp [pushFrame]
      · have := congrArg List.length hm1
        simpa using this

/-- Witness for C3 on a concrete two-binding chain: let x1 = 5 in let
x2 = 6 in x2, lowered in a fresh session. -/
theorem let_chain_flattening_witness :
    ∃ (pairs : List (((Nat × RType) × CPPExpr) × Expr)) (b : CPPExpr),
      CPPExpr.decl [((1, tE), .relayExpr (.constant 5 tE)),
          ((2, tE), .relayExpr (.constant 6 tE))]
        (.relayExpr (.var 2 tE)) = .decl (pairs.map Prod.fst) b ∧
      pairs.length = 2 ∧
      pairs.map (fun q => q.1.1) = [(1, tE), (2, tE)] ∧
      pairs.map Prod.snd = [.constant 5 tE, .constant 6 tE] ∧
      (∀ q ∈ pairs, ∃ m s s2, visit m q.2 s = (s2, .ok q.1.2)) ∧
      (∃ m s s2, visit m (.var 2 tE) s = (s2, .ok b)) := by
  have h := let_chain_flattening 9 1 tE (.constant 5 tE)
    (.letE 2 tE (.constant 6 tE) (.var 2 tE) tE) tE
    [((1, tE), .constant 5 tE), ((2, tE), .constant 6 tE)] (.var 2 tE)
    stW
    ((visit 9 (.letE 1 tE (.constant 5 tE)
      (.letE 2 tE (.constant 6 tE) (.var 2 tE) tE) tE) stW).1)
    (.decl [((1, tE), .relayExpr (.constant 5 tE)),
        ((2, tE), .relayExpr (.constant 6 tE))]
      (.relayExpr (.var 2 tE)))
    (IsChain.cons 1 tE (.constant 5 tE) _ tE _ _
      (IsChain.cons 2 tE (.constant 6 tE) _ tE _ _
        (IsChain.nil (.var 2 tE) rfl)))
    rfl
  obtain ⟨pairs, b, h1, h2, h3, h4, h5, h6⟩ := h
  exact ⟨pairs, b, h1, h2, h3, h4, h5, h6⟩

/-- C5 counterexample: the claim also asserts that after a failed
lowering of a global, a subsequent lookup of that global treats the
aborted entry as absent and re-visits it.  In the code the provisional
marker string stays in gv_map, so within the same session a subsequent
lookup finds the entry present, returns immediately, and does not
re-visit: after global 0's body fails to lower in stBad, its entry is
still the marker, and a second lookup succeeds with unchanged state and
an unchanged visit log (no re-visit). -/
theorem aborted_entry_not_revisited :
    (visit 5 (.globalVar 0 tE) stBad).2 = .err .unsupportedNode ∧
    alookup (visit 5 (.globalVar 0 tE) stBad).1.gvMap 0 = some .marker ∧
    visit 5 (.globalVar 0 tE) ((visit 5 (.globalVar 0 tE) stBad).1) =
      ((visit 5 (.globalVar 0 tE) stBad).1,
        .ok (.relayExpr (.globalVar 0 tE))) ∧
    (visit 5 (.globalVar 0 tE) ((visit 5 (.globalVar 0 tE) stBad).1)).1.visitLog
      = [0] :=
  ⟨rfl, rfl, rfl, rfl⟩

/-- C5 amended: when JIT compilation of a primitive fails, the Operator
Cache registers no entry for that fingerprint (the counter records the
attempt), so a later request in a state whose jit succeeds re-attempts
compilation and registers it; when lowering of a global's body fails,
the provisional Resolving marker is not promoted to Resolved; however a
subsequent lookup in the same session finds the marker still present and
returns the reference without re-visiting (only a fresh session, with a
fresh gv_map, re-visits). -/
theorem failure_not_cached :
    (∀ f args outTy st, (callingConv f args).isSome →
      structural_hash f ∉ st.registered →
      st.jitOk (structural_hash f) = false →
      (mk_primitive_op f args outTy st).2 = .err .kernelCompilation ∧
      (mk_primitive_op f args outTy st).1.registered = st.registered ∧
      (mk_primitive_op f args outTy st).1.jitCount = st.jitCount + 1) ∧
    (∀ f args outTy st, (callingConv f args).isSome →
      structural_hash f ∉ st.registered →
      st.jitOk (structural_hash f) = true →
      structural_hash f ∈ (mk_primitive_op f args outTy st).1.registered) ∧
    (∀ n g ty d st st2 k, alookup st.gvMap g = none →
      alookup st.mod g = some d →
      visit n (.globalVar g ty) st = (st2, .err k) →
      alookup st2.gvMap g = some .marker) ∧
    (∀ n g ty st, (alookup st.gvMap g).isSome →
      visit (n + 1) (.globalVar g ty) st =
        (st, .ok (.relayExpr (.globalVar g ty)))) := by
  refine ⟨?_, ?_, ?_, ?_⟩
  · intro f args outTy st hcc hmem hjit
    unfold mk_primitive_op
    rcases hc : callingConv f args with _ | ⟨tup, np⟩
    · rw [hc] at hcc; simp at hcc
    · simp [hmem, hjit]
  · intro f args outTy st hcc hmem hjit
    rw [mk_state_fresh f args outTy st hcc hmem hjit]
    simp
  · intro n g ty d st st2 k hfresh hmod h
    cases n with
    | zero => simp [visit] at h
    | succ n =>
        simp only [visit] at h
        have hg : (alookup st.gvMap g).isSome = false := by
          rw [hfresh]; rfl
        rw [hg] at h
        simp only [Bool.false_eq_true, if_false] at h
        rw [hmod] at h
        dsimp only at h
        rcases hv : visit n d { st with gvMap := ainsert st.gvMap g .marker,
                                        visitLog := st.visitLog ++ [g] }
          with ⟨s2, o⟩
        rw [hv] at h
        cases o with
        | ok cd => dsimp only at h; simp at h
        | err k2 =>
            dsimp only at h
            simp only [Prod.mk.injEq] at h
            rw [← h.1]
            have hev : StEv { st with gvMap := ainsert st.gvMap g .marker,
                                      visitLog := st.visitLog ++ [g] } s2 := by
              have := (visit_stEv n).1 d
                { st with gvMap := ainsert st.gvMap g .marker,
                          visitLog := st.visitLog ++ [g] }
              rw [hv] at this
              exact this
            exact hev.gv_pres g .marker (alookup_ainsert_self _ _ _)
        | fuelOut => dsimp only at h; simp at h
  · intro n g ty st hsome
    simp [visit, hsome]

/-- Witness for C5 amended: a failing jit on pF1 registers nothing and
errors; with a succeeding jit the same fingerprint is registered; after
global 0's body fails in stBad its entry is the unpromoted marker; and a
present entry short-circuits the lookup. -/
theorem failure_not_cached_witness :
    (mk_primitive_op pF1 [aX] tE
      { stW with jitOk := fun _ => false }).2 = .err .kernelCompilation ∧
    (mk_primitive_op pF1 [aX] tE
      { stW with jitOk := fun _ => false }).1.registered = [] ∧
    structural_hash pF1 ∈ (mk_primitive_op pF1 [aX] tE stW).1.registered ∧
    alookup (visit 5 (.globalVar 0 tE) stBad).1.gvMap 0 = some .marker := by
  obtain ⟨h1, h2, h3, h4⟩ := failure_not_cached
  have ha := h1 pF1 [aX] tE { stW with jitOk := fun _ => false }
    (by decide) (by simp [stW]) rfl
  refine ⟨ha.1, ha.2.1, ?_, ?_⟩
  · exact h2 pF1 [aX] tE stW (by decide) (by simp [stW]) rfl
  · exact h3 5 0 tE (.ctor 0 tE) stBad
      ((visit 5 (.globalVar 0 tE) stBad).1) .unsupportedNode rfl rfl rfl

/-- C10: a function definition whose attribute record is absent, or
whose Primitive attribute is present but not equal to 1, is treated as
non-primitive — a call to it lowers through the general Invoke path and
the definition itself lowers to a FunctionWrapper, never a PackedCall —
and only a function whose Primitive value equals 1 takes the kernel
path. -/
theorem nonprimitive_general_path :
    (∀ (ps : List (Nat × RType)) (body : Expr) (retTy : RType)
      (attrs : Option Int) (fty : RType),
      is_primitive (.func ps body retTy attrs fty) = true ↔ attrs = some 1) ∧
    (∀ n op args ty st st2 r, is_primitive op = false →
      (∀ tag t2, op ≠ .ctor tag t2) →
      visit n (.call op args ty) st = (st2, .ok r) →
      ∃ fn cargs, r = .invoke fn cargs) ∧
    (∀ n (ps : List (Nat × RType)) (body : Expr) (retTy : RType)
      (attrs : Option Int) (fty : RType) st st2 r,
      is_primitive (.func ps body retTy attrs fty) = false →
      visit n (.func ps body retTy attrs fty) st = (st2, .ok r) →
      ∃ cb, r = .cppFunction ps cb fty.retType) := by
  refine ⟨?_, ?_, ?_⟩
  · intro ps body retTy attrs fty
    cases attrs with
    | none => simp [is_primitive]
    | some v => simp [is_primitive]
  · intro n op args ty st st2 r hp hnc h
    cases n with
    | zero => simp [visit] at h
    | succ n =>
        simp only [visit, hp, Bool.false_eq_true, if_false] at h
        cases op with
        | ctor tag t2 => exact absurd rfl (hnc tag t2)
        | var a b =>
            split at h
            · split at h
              · simp only [Prod.mk.injEq, Out.ok.injEq] at h
                exact ⟨_, _, h.2.symm⟩
              · simp at h
              · simp at h
            · simp at h
            · simp at h
        | constant a b =>
            split at h
            · split at h
              · simp only [Prod.mk.injEq, Out.ok.injEq] at h
                exact ⟨_, _, h.2.symm⟩
              · simp at h
              · simp at h
            · simp at h
            · simp at h
        | globalVar a b =>
            split at h
            · split at h
              · simp only [Prod.mk.injEq, Out.ok.injEq] at h
                exact ⟨_, _, h.2.symm⟩
              · simp at h
              · simp at h
            · simp at h
            · simp at h
        | call a b c =>
            split at h
            · split at h
              · simp only [Prod.mk.injEq, Out.ok.injEq] at h
                exact ⟨_, _, h.2.symm⟩
              · simp at h
              · simp at h
            · simp at h
            · simp at h
        | letE a b c d e =>
            split at h
            · split at h
              · simp only [Prod.mk.injEq, Out.ok.injEq] at h
                exact ⟨_, _, h.2.symm⟩
              · simp at h
              · simp at h
            · simp at h
            · simp at h
        | ifE a b c d =>
            split at h
            · split at h
              · simp only [Prod.mk.injEq, Out.ok.injEq] at h
                exact ⟨_, _, h.2.symm⟩
              · simp at h
              · simp at h
            · simp at h
            · simp at h
        | tupleE a b =>
            split at h
            · split at h
              · simp only [Prod.mk.injEq, Out.ok.injEq] at h
                exact ⟨_, _, h.2.symm⟩
              · simp at h
              · simp at h
            · simp at h
            · simp at h
        | func a b c d e =>
            split at h
            · split at h
              · simp only [Prod.mk.injEq, Out.ok.injEq] at h
                exact ⟨_, _, h.2.symm⟩
              · simp at h
              · simp at h
            · simp at h
            · simp at h
        | matchE a b c =>
            split at h
            · split at h
              · simp only [Prod.mk.injEq, Out.ok.injEq] at h
                exact ⟨_, _, h.2.symm⟩
              · simp at h
              · simp at h
            · simp at h
            · simp at h
  · intro n ps body retTy attrs fty st st2 r hp h
    cases n with
    | zero => simp [visit] at h
    | succ n =>
        simp only [visit, hp, Bool.false_eq_true, if_false] at h
        split at h
        · simp only [Prod.mk.injEq, Out.ok.injEq] at h
          exact ⟨_, h.2.symm⟩
        · simp at h
        · simp at h

/-- Witness for C10: a function with no attribute record is
non-primitive and lowers to a FunctionWrapper; a call through a plain
variable lowers to an Invoke; Primitive = 1 is exactly the primitive
condition. -/
theorem nonprimitive_general_path_witness :
    (is_primitive (.func [(0, tE)] (.var 0 tE) tE (some 1) (.funcT [tE] tE))
      = true) ∧
    (∃ fn cargs, (CPPExpr.invoke (.relayExpr (.var 5 (.funcT [tE] tE)))
      [.relayExpr aX]) = .invoke fn cargs) ∧
    (∃ cb, (CPPExpr.cppFunction [(0, tE)] (.relayExpr (.var 0 tE)) tE) =
      .cppFunction [(0, tE)] cb (RType.funcT [tE] tE).retType) := by
  obtain ⟨h1, h2, h3⟩ := nonprimitive_general_path
  refine ⟨?_, ?_, ?_⟩
  · exact (h1 [(0, tE)] (.var 0 tE) tE (some 1) (.funcT [tE] tE)).mpr rfl
  · exact h2 4 (.var 5 (.funcT [tE] tE)) [aX] tE stW
      ((visit 4 (.call (.var 5 (.funcT [tE] tE)) [aX] tE) stW).1)
      (.invoke (.relayExpr (.var 5 (.funcT [tE] tE))) [.relayExpr aX])
      rfl (by intro tag t2 hne; cases hne) rfl
  · exact h3 4 [(0, tE)] (.var 0 tE) tE none (.funcT [tE] tE) stW
      ((visit 4 (.func [(0, tE)] (.var 0 tE) tE none (.funcT [tE] tE)) stW).1)
      (.cppFunction [(0, tE)] (.relayExpr (.var 0 tE)) tE)
      rfl rfl

end RelayAoT
